import Mathlib

/-!
Formal model of the Scientific RAG prototype's chunking, retrieval, image
association and chat-session layers, together with proofs of the behavioural
properties claimed for them.

The model is a shallow embedding of the Python sources:
  * `src/processing/chunker.py`  (`ScientificChunker`): regex-based extraction
    of tables / equations / figure captions and the special-content removal
    pass, embedded as deterministic matchers on `List Char` that follow the
    leftmost/greedy backtracking semantics of Python's `re` module for the
    three concrete patterns used by the code;
  * `src/retrieval/retriever.py` (`ScientificRetriever`): similarity cutoff,
    optional content-type filter, top-N truncation and context formatting;
  * `src/chatbot/engine.py` (`ScientificChatEngine`): greeting fast path,
    citation-record construction, page-window image resolution;
  * `app.py` (`render_images`): size / aspect / content-hash image filtering.

Similarity scores (Python floats) are modelled as rationals; metadata page
numbers (decimal strings produced by `str(i+1)` and parsed back with `int`)
are modelled as naturals.
-/

namespace SciRAG

/-! ## Character classes used by the patterns -/

/-- Python regex `\s` (ASCII): space, tab, newline, carriage return,
vertical tab, form feed.  Also the character set stripped by `str.strip()`. -/
def isPySpace (c : Char) : Bool :=
  c = ' ' || c = '\t' || c = '\n' || c = '\r' || c = '\x0b' || c = '\x0c'

/-- Characters allowed between the pipes of a markdown header-separator row:
the regex character class `[-:]`. -/
def isSepChar (c : Char) : Bool :=
  c = '-' || c = ':'

/-- Negation of newline: the regex character class `[^\n]`. -/
def notNL (c : Char) : Bool :=
  c != '\n'

/-- Negation of the dollar sign: the regex character class `[^$]`. -/
def notDollar (c : Char) : Bool :=
  c != '$'

/-- Python `str.strip(chars)`: drop characters of `cs` from both ends. -/
def pyStripChars (cs : List Char) (s : List Char) : List Char :=
  ((s.dropWhile (cs.contains ·)).reverse.dropWhile (cs.contains ·)).reverse

/-- Python `str.strip()` with no argument: strip whitespace from both ends. -/
def pyStrip (s : List Char) : List Char :=
  ((s.dropWhile isPySpace).reverse.dropWhile isPySpace).reverse

/-- Python `str.lower()` (ASCII case folding). -/
def pyLower (s : List Char) : List Char :=
  s.map Char.toLower

/-! ## The retriever (`src/retrieval/retriever.py`)

`ScientificRetriever.retrieve` pipes the vector-index candidates through the
`SimilarityPostprocessor` (cutoff `0.5`), an optional content-type filter
(`if content_types:` — Python truthiness, so `None` and `[]` both mean "no
filter"), and truncation to `rerank_top_n` (config default `3`). -/

/-- A retrieval candidate: a `NodeWithScore` whose node carries the metadata
fields read by the retriever and the context formatter.  Fields absent from
the metadata dict are `none`. -/
structure RetrievedNode where
  text : String
  source : Option String
  pageNum : Option String
  contentType : Option String
  score : ℚ
deriving DecidableEq, Repr

/-- Configured initial candidate-pool size (`config.SIMILARITY_TOP_K`). -/
def SIMILARITY_TOP_K : Nat := 5

/-- Configured final result-list size (`config.RERANK_TOP_N`). -/
def RERANK_TOP_N : Nat := 3

/-- The `SimilarityPostprocessor(similarity_cutoff=0.5)` applied in
`retrieve`.  The postprocessor itself is library code treated by the spec as
an external collaborator; its contract is that any result scoring below the
cutoff is dropped. -/
def similarityFilter (nodes : List RetrievedNode) : List RetrievedNode :=
  nodes.filter (fun n => decide ((1 : ℚ) / 2 ≤ n.score))

/-- The `if content_types:` stage of `retrieve`: with a falsy filter
(`None` or the empty list) the nodes pass through; otherwise every node
whose content type (metadata default `"text"`) is outside the allowed set is
dropped. -/
def contentTypeFilter (nodes : List RetrievedNode)
    (contentTypes : Option (List String)) : List RetrievedNode :=
  match contentTypes with
  | none => nodes
  | some cts =>
      if cts = [] then nodes
      else nodes.filter (fun n => decide ((n.contentType.getD "text") ∈ cts))

/-- `ScientificRetriever.retrieve`: similarity cutoff, then the optional
content-type filter, then truncation to the top `rerankTopN` results. -/
def retrieve (rerankTopN : Nat) (candidates : List RetrievedNode)
    (contentTypes : Option (List String)) : List RetrievedNode :=
  (contentTypeFilter (similarityFilter candidates) contentTypes).take rerankTopN

/-- One `[Source i: ..., Page ..., Type: ...]` block of
`format_context_for_llm`. -/
def formatContextBlock (i : Nat) (n : RetrievedNode) : String :=
  "[Source " ++ toString i ++ ": " ++ n.source.getD "Unknown" ++ ", Page " ++
    n.pageNum.getD "?" ++ ", Type: " ++ n.contentType.getD "text" ++ "]" ++
    "\n" ++ n.text ++ "\n"

/-- `ScientificRetriever.format_context_for_llm`: enumerate the retained
nodes from 1, render each as a labeled block and join with the visible
separator. -/
def formatContextForLlm (nodes : List RetrievedNode) : String :=
  String.intercalate "\n---\n"
    ((nodes.enumFrom 1).map (fun p => formatContextBlock p.1 p.2))

/-! ## The chunker (`src/processing/chunker.py`)

The three patterns compiled in `ScientificChunker.__init__` are

  * `table_pattern`    : `\|[^\n]+\|\n(?:\|[-:]+\|)+\n(?:\|[^\n]+\|\n?)+`
  * `equation_pattern` : `\$\$[^$]+\$\$|\$[^$]+\$`
  * `figure_pattern`   : `(?:Figure|Fig\.?)\s+\d+[.:][^\n]+(?:\n[^\n]+)?`
    (compiled with `re.IGNORECASE`)

Each matcher below computes, for a text `t`, the match that Python's
backtracking engine produces when the pattern is anchored at the head of
`t`, returning the matched prefix and the remaining suffix.  For these three
patterns the backtracking search is deterministic, because no quantified
piece can trade characters with its successor:

  * in `\|[^\n]+\|\n` the closing pipe must sit immediately before the
    newline that terminates the current line, so the greedy `[^\n]+`
    backtracks to exactly the last-but-one position of the line;
  * in `(?:\|[-:]+\|)+\n` each unit's `[-:]+` run is bounded by the next
    pipe, and after any unit the next character is never both a valid unit
    start and a newline, so the unit count never backtracks;
  * in `(?:\|[^\n]+\|\n?)+` the pattern ends the regex, so the first
    (fully greedy) parse found is the match;
  * in the figure pattern, whenever the `Figure` alternative matches, the
    following character is `u`, which can satisfy neither `\.?\s+` of the
    `Fig\.?` alternative, so the alternation never backtracks; the remaining
    components are bounded by disjoint character classes.
-/

/-- Anchored match of `\|[^\n]+\|\n` (the table header row): the current
line must start with a pipe, end with a pipe immediately before its
newline, and have at least one character in between. -/
def matchRow (t : List Char) : Option (List Char × List Char) :=
  let line := t.takeWhile notNL
  if line.head? = some '|' && line.getLast? = some '|' && 3 ≤ line.length then
    match t.dropWhile notNL with
    | '\n' :: r => some (line ++ ['\n'], r)
    | _ => none
  else none

/-- Anchored match of one separator unit `\|[-:]+\|`. -/
def sepUnit (t : List Char) : Option (List Char × List Char) :=
  match t with
  | '|' :: t1 =>
      let ds := t1.takeWhile isSepChar
      if ds = [] then none
      else
        match t1.dropWhile isSepChar with
        | '|' :: t2 => some ('|' :: ds ++ ['|'], t2)
        | _ => none
  | _ => none

/-- Greedy run of separator units (`(?:\|[-:]+\|)+` without the final
count-one check): returns the list of parsed units and the rest. -/
def sepRun : Nat → List Char → List (List Char) × List Char
  | 0, t => ([], t)
  | fuel + 1, t =>
      match sepUnit t with
      | none => ([], t)
      | some (u, r) =>
          let p := sepRun fuel r
          (u :: p.1, p.2)

/-- Anchored match of `(?:\|[-:]+\|)+\n`: at least one separator unit,
immediately followed by a newline. -/
def sepPart (t : List Char) : Option (List Char × List Char) :=
  let p := sepRun t.length t
  if p.1 = [] then none
  else
    match p.2 with
    | '\n' :: r => some (p.1.flatten ++ ['\n'], r)
    | _ => none

/-- Anchored match of one data-row unit `\|[^\n]+\|`: from an opening pipe,
the greedy `[^\n]+` backtracks to the last pipe of the current line, which
must lie at index at least 2. -/
def dataUnit (t : List Char) : Option (List Char × List Char) :=
  match t with
  | '|' :: _ =>
      let line := t.takeWhile notNL
      let rest := t.dropWhile notNL
      let revUnit := line.reverse.dropWhile (fun c => c != '|')
      if 3 ≤ revUnit.length then
        some (revUnit.reverse, line.drop revUnit.length ++ rest)
      else none
  | _ => none

/-- Greedy continuation of `(?:\|[^\n]+\|\n?)+` after the first unit: each
further iteration requires the optional newline of the previous one to have
been consumed (otherwise the junk after the line's last pipe blocks the next
unit start).  Returns the additionally consumed characters and the rest. -/
def dataRun : Nat → List Char → List Char × List Char
  | 0, t => ([], t)
  | fuel + 1, t =>
      match dataUnit t with
      | none => ([], t)
      | some (u, r) =>
          match r with
          | '\n' :: r2 =>
              let p := dataRun fuel r2
              (u ++ '\n' :: p.1, p.2)
          | _ => (u, r)

/-- Anchored match of `(?:\|[^\n]+\|\n?)+`: one data-row unit, then the
greedy continuation. -/
def dataPart (t : List Char) : Option (List Char × List Char) :=
  match dataUnit t with
  | none => none
  | some (u, r) =>
      match r with
      | '\n' :: r2 =>
          let p := dataRun r2.length r2
          some (u ++ '\n' :: p.1, p.2)
      | _ => some (u, r)

/-- Anchored match of the full `table_pattern`. -/
def matchTable (t : List Char) : Option (List Char × List Char) :=
  match matchRow t with
  | none => none
  | some (a, t1) =>
      match sepPart t1 with
      | none => none
      | some (b, t2) =>
          match dataPart t2 with
          | none => none
          | some (c, t3) => some (a ++ b ++ c, t3)

/-- Anchored match of the block-equation alternative `\$\$[^$]+\$\$`
(also the pattern used on its own by the removal pass). -/
def matchEq2 (t : List Char) : Option (List Char × List Char) :=
  match t with
  | '$' :: '$' :: t1 =>
      let mid := t1.takeWhile notDollar
      if mid = [] then none
      else
        match t1.dropWhile notDollar with
        | '$' :: '$' :: r => some ('$' :: '$' :: (mid ++ ['$', '$']), r)
        | _ => none
  | _ => none

/-- Anchored match of the inline-equation alternative `\$[^$]+\$`. -/
def matchEq1 (t : List Char) : Option (List Char × List Char) :=
  match t with
  | '$' :: t1 =>
      let mid := t1.takeWhile notDollar
      if mid = [] then none
      else
        match t1.dropWhile notDollar with
        | '$' :: r => some ('$' :: (mid ++ ['$']), r)
        | _ => none
  | _ => none

/-- Anchored match of the full `equation_pattern`: the block alternative is
tried first, then the inline one. -/
def matchEqFull (t : List Char) : Option (List Char × List Char) :=
  match matchEq2 t with
  | some p => some p
  | none => matchEq1 t

/-- Case-insensitive anchored match of `(?:Figure|Fig\.?)`: `Figure` first;
otherwise `Fig` with an optional literal dot. -/
def figHead (t : List Char) : Option (List Char × List Char) :=
  match t with
  | c1 :: c2 :: c3 :: rest =>
      if c1.toLower = 'f' && c2.toLower = 'i' && c3.toLower = 'g' then
        match rest with
        | c4 :: c5 :: c6 :: rest2 =>
            if c4.toLower = 'u' && c5.toLower = 'r' && c6.toLower = 'e' then
              some ([c1, c2, c3, c4, c5, c6], rest2)
            else
              match rest with
              | '.' :: r => some ([c1, c2, c3, '.'], r)
              | _ => some ([c1, c2, c3], rest)
        | '.' :: r => some ([c1, c2, c3, '.'], r)
        | _ => some ([c1, c2, c3], rest)
      else none
  | _ => none

/-- Anchored match of the full `figure_pattern`. -/
def matchFig (t : List Char) : Option (List Char × List Char) :=
  match figHead t with
  | none => none
  | some (h, t1) =>
      let ws := t1.takeWhile isPySpace
      if ws = [] then none
      else
        let t2 := t1.dropWhile isPySpace
        let ds := t2.takeWhile Char.isDigit
        if ds = [] then none
        else
          match t2.dropWhile Char.isDigit with
          | c :: t3 =>
              if c = '.' || c = ':' then
                let body := t3.takeWhile notNL
                if body = [] then none
                else
                  let t4 := t3.dropWhile notNL
                  match t4 with
                  | '\n' :: t5 =>
                      let nxt := t5.takeWhile notNL
                      if nxt = [] then
                        some (h ++ ws ++ ds ++ c :: body, t4)
                      else
                        some (h ++ ws ++ ds ++ c :: (body ++ '\n' :: nxt),
                          t5.dropWhile notNL)
                  | _ => some (h ++ ws ++ ds ++ c :: body, t4)
              else none
          | [] => none

/-! ### Scanning and substitution

`re.finditer` / `re.sub` semantics: try the pattern at each position from
the left; on a match, continue after it (all three patterns only produce
non-empty matches); otherwise advance one character.  The recursion is
fuelled; every lemma assumes fuel at least the text length, and the public
definitions instantiate the fuel with the text length. -/

/-- Fuelled scanner returning every (position, match) pair, left to right,
non-overlapping. -/
def findAllPosF (pat : List Char → Option (List Char × List Char)) :
    Nat → Nat → List Char → List (Nat × List Char)
  | 0, _, _ => []
  | _, _, [] => []
  | fuel + 1, pos, c :: cs =>
      match pat (c :: cs) with
      | some (m, r) => (pos, m) :: findAllPosF pat fuel (pos + m.length) r
      | none => findAllPosF pat fuel (pos + 1) cs

/-- Fuelled scanner returning the matched substrings only. -/
def findAllF (pat : List Char → Option (List Char × List Char)) :
    Nat → List Char → List (List Char)
  | 0, _ => []
  | _, [] => []
  | fuel + 1, c :: cs =>
      match pat (c :: cs) with
      | some (m, r) => m :: findAllF pat fuel r
      | none => findAllF pat fuel cs

/-- Fuelled `re.sub`: replace every non-overlapping match of `pat` by
`repl`. -/
def subAllF (pat : List Char → Option (List Char × List Char))
    (repl : List Char) : Nat → List Char → List Char
  | 0, t => t
  | _, [] => []
  | fuel + 1, c :: cs =>
      match pat (c :: cs) with
      | some (_, r) => repl ++ subAllF pat repl fuel r
      | none => c :: subAllF pat repl fuel cs

/-- The table spans matched by `_extract_tables` on `t`. -/
def tableSpans (t : List Char) : List (List Char) :=
  findAllF matchTable t.length t

/-- The equation spans matched by `_extract_equations` on `t` (both block
and inline alternatives). -/
def eqSpans (t : List Char) : List (List Char) :=
  findAllF matchEqFull t.length t

/-- The equation spans that the block (double-dollar) alternative
produced. -/
def blockEqSpans (t : List Char) : List (List Char) :=
  (eqSpans t).filter (fun m => m.take 2 = ['$', '$'])

/-- The figure-caption spans matched by `_extract_figures` on `t`. -/
def figSpans (t : List Char) : List (List Char) :=
  findAllF matchFig t.length t

/-- Placeholder substituted for table blocks. -/
def tablePlaceholder : List Char := "[TABLE REMOVED]".data

/-- Placeholder substituted for block equations. -/
def eqPlaceholder : List Char := "[EQUATION REMOVED]".data

/-- Placeholder substituted for figure captions. -/
def figPlaceholder : List Char := "[FIGURE REMOVED]".data

/-- `_remove_special_content`: substitute the table pattern, then the
double-dollar equation pattern (inline equations are left in place), then
the figure pattern. -/
def removeSpecialContent (t : List Char) : List Char :=
  let t1 := subAllF matchTable tablePlaceholder t.length t
  let t2 := subAllF matchEq2 eqPlaceholder t1.length t1
  subAllF matchFig figPlaceholder t2.length t2

/-- A chunk produced by the special-content extractors, with its text body,
content-type tag and the type-specific metadata fields. -/
structure ChunkNode where
  text : List Char
  contentType : String
  context : Option (List Char) := none
  latex : Option (List Char) := none
  caption : Option (List Char) := none
deriving DecidableEq, Repr

/-- The table context of `_extract_tables`:
`text.rfind('\n', 0, max(0, start - 200))` locates the last newline before
the 200-character window, and the slice `text[context_start:start]` is
stripped.  When `rfind` returns `-1`, Python's negative indexing makes the
slice `text[len(text)-1:start]`. -/
def tableContext (t : List Char) (start : Nat) : List Char :=
  let bound := start - 200
  let pre := (t.take bound).reverse
  match pre.findIdx? (fun c => c = '\n') with
  | some k =>
      let i := pre.length - 1 - k
      pyStrip ((t.drop i).take (start - i))
  | none => pyStrip ((t.drop (t.length - 1)).take (start - (t.length - 1)))

/-- `ScientificChunker._extract_tables`: one `table` chunk per match, body
`"TABLE:\n{context}\n\n{table_text}"`, context truncated to 200 characters
in the metadata. -/
def extractTables (t : List Char) : List ChunkNode :=
  (findAllPosF matchTable t.length 0 t).map (fun pm =>
    let ctx := tableContext t pm.1
    { text := "TABLE:\n".data ++ ctx ++ "\n\n".data ++ pm.2
      contentType := "table"
      context := some (ctx.take 200) })

/-- `ScientificChunker._extract_equations`: one `equation` chunk per match,
body `"EQUATION:\n{before.strip()}\n{equation}\n{after.strip()}"` with 150
characters of context on each side, raw match kept in the metadata. -/
def extractEquations (t : List Char) : List ChunkNode :=
  (findAllPosF matchEqFull t.length 0 t).map (fun pm =>
    let before := (t.drop (pm.1 - 150)).take (pm.1 - (pm.1 - 150))
    let after := (t.drop (pm.1 + pm.2.length)).take 150
    { text := "EQUATION:\n".data ++ pyStrip before ++ '\n' ::
        (pm.2 ++ '\n' :: pyStrip after)
      contentType := "equation"
      latex := some pm.2 })

/-- `ScientificChunker._extract_figures`: one `figure` chunk per match,
body `"FIGURE: {figure_text}"`, caption kept in the metadata. -/
def extractFigures (t : List Char) : List ChunkNode :=
  (findAllPosF matchFig t.length 0 t).map (fun pm =>
    { text := "FIGURE: ".data ++ pm.2
      contentType := "figure"
      caption := some pm.2 })

/-- Text body of the first chunk of a list (used to state concrete
scenario properties). -/
def headText (l : List ChunkNode) : List Char :=
  match l with
  | [] => []
  | n :: _ => n.text

/-! ## The chat engine (`src/chatbot/engine.py`) -/

/-- Construction-time state of `ScientificChatEngine.__init__` that matters
for the credential check: the resolved Groq API key. -/
structure ChatEngine where
  apiKey : String
deriving DecidableEq, Repr

/-- Python truthiness of an optional string: `None` and `""` are falsy. -/
def truthyStr (s : Option String) : Bool :=
  match s with
  | none => false
  | some v => v != ""

/-- Python `a or b` on optional strings: `a` when truthy, otherwise `b`. -/
def pyOrOptStr (a b : Option String) : Option String :=
  if truthyStr a then a else b

/-- The `ValueError` message raised on a missing key. -/
def missingKeyMsg : String :=
  "GROQ_API_KEY not found! Get a FREE key at https://console.groq.com/keys"

/-- `ScientificChatEngine.__init__`: resolve
`GROQ_API_KEY or os.getenv("GROQ_API_KEY")` and raise `ValueError` when the
result is falsy; otherwise construction proceeds (the LLM client, memory and
chat engine are external collaborators). -/
def mkChatEngine (configKey envKey : Option String) : Except String ChatEngine :=
  if truthyStr (pyOrOptStr configKey envKey) then
    Except.ok { apiKey := (pyOrOptStr configKey envKey).getD "" }
  else
    Except.error missingKeyMsg

/-- The greeting list of `stream_chat`. -/
def greetings : List (List Char) :=
  ["hi", "hello", "hey", "greetings", "good morning", "good afternoon",
   "good evening", "thanks", "thank you", "ok", "okay"].map String.data

/-- The message normalisation of `stream_chat`:
`message.lower().strip().strip('?!. ')`. -/
def cleanMsg (message : List Char) : List Char :=
  pyStripChars ['?', '!', '.', ' '] (pyStrip (pyLower message))

/-- Result of one call to `stream_chat`: either a canned mock streaming
response (greeting fast path, no retrieval and no generation call), or a
dispatch to the underlying `CondensePlusContextChatEngine.stream_chat`
(which performs vector-index retrieval and calls the generation provider). -/
inductive StreamOutcome where
  | canned (reply : List Char)
  | engineCall
deriving DecidableEq, Repr

/-- Canned reply for plain greetings. -/
def helloReply : List Char :=
  "Hello! How can I help you with your scientific papers today?".data

/-- Canned reply for "thanks" / "thank you". -/
def thanksReply : List Char :=
  "You're welcome! Let me know if you have more questions about the papers.".data

/-- `ScientificChatEngine.stream_chat`: the greeting fast path returns a
`MockStreamingResponse` without touching the chat engine; every other input
is forwarded to the retrieval + generation pipeline. -/
def streamChat (message : List Char) : StreamOutcome :=
  let clean := cleanMsg message
  if clean ∈ greetings then
    StreamOutcome.canned
      (if clean = "thanks".data || clean = "thank you".data then thanksReply
       else helloReply)
  else
    StreamOutcome.engineCall

/-- A source node attached to a chat response, with the metadata fields read
by `_extract_sources_and_images`.  Page labels are decimal strings in the
Python metadata (`str(i+1)`, parsed back with `int`); they are modelled as
naturals.  The parsed `image_map` JSON object is an association list from
page number to image paths. -/
structure EngineNode where
  text : List Char
  source : Option String
  pageLabel : Option Nat
  pageNum : Option Nat
  contentType : Option String
  score : Option ℚ
  imageMap : Option (List (Nat × List String))
deriving DecidableEq, Repr

/-- One citation record built by `_extract_sources_and_images`. -/
structure Citation where
  source : String
  page : String
  contentType : String
  score : Option ℚ
  textPreview : List Char
deriving DecidableEq, Repr

/-- Banker's rounding to an integer, the behaviour of Python's `round`. -/
def roundHalfEven (q : ℚ) : ℤ :=
  let f := ⌊q⌋
  let r := q - (f : ℚ)
  if r < 1 / 2 then f
  else if 1 / 2 < r then f + 1
  else if Even f then f else f + 1

/-- Python `round(x, 3)`. -/
def round3 (q : ℚ) : ℚ :=
  (roundHalfEven (q * 1000) : ℚ) / 1000

/-- The citation record appended for one source node:
source, page (`page_label` falling back to `page_num` then `"?"`),
content type, `round(score, 3) if node.score else None` (so a `None` or
exactly-zero score yields `None`), and the 200-character text preview. -/
def mkCitation (n : EngineNode) : Citation :=
  { source := n.source.getD "Unknown"
    page :=
      match n.pageLabel with
      | some p => toString p
      | none =>
          match n.pageNum with
          | some p => toString p
          | none => "?"
    contentType := n.contentType.getD "text"
    score :=
      match n.score with
      | none => none
      | some s => if s = 0 then none else some (round3 s)
    textPreview :=
      if 200 < n.text.length then n.text.take 200 ++ "...".data else n.text }

/-- The visual-reference keywords gating image extraction. -/
def figureKeywords : List String :=
  ["figure", "image", "diagram", "plot", "chart", "graph", "visual",
   "show me", "picture"]

/-- `should_extract_images`: does the lowercased user message contain one of
the visual-reference keywords? -/
def shouldExtractImages (message : List Char) : Bool :=
  figureKeywords.any (fun kw => decide (kw.data <:+: pyLower message))

/-- The page number used for image resolution: `int(page_label)` when the
`page_label` key is present, otherwise `int(page_num)` when present. -/
def resolvedPage (n : EngineNode) : Option Nat :=
  match n.pageLabel with
  | some p => some p
  | none => n.pageNum

/-- Images collected for one source node: gated on a visual-reference
keyword, on an `image_map` entry and on a truthy page number; then the map
entries of pages `P`, `P-1`, `P+1` are concatenated (Python iterates
`[str(P), str(P-1), str(P+1)]` and extends with each hit). -/
def imagesForNode (message : List Char) (n : EngineNode) : List String :=
  if shouldExtractImages message then
    match n.imageMap with
    | none => []
    | some imap =>
        match resolvedPage n with
        | none => []
        | some p =>
            if p ≠ 0 then
              (imap.lookup p).getD [] ++ (imap.lookup (p - 1)).getD [] ++
                (imap.lookup (p + 1)).getD []
            else []
  else []

/-- The final image deduplication of `_extract_sources_and_images`: keep the
first occurrence of each path, preserving order. -/
def dedupKeepFirst (paths : List String) : List String :=
  paths.foldl (fun acc i => if i ∈ acc then acc else acc ++ [i]) []

/-- `_extract_sources_and_images`: one citation record appended per source
node, images accumulated per node and deduplicated by exact path at the
end. -/
def extractSourcesAndImages (message : List Char) (ns : List EngineNode) :
    List Citation × List String :=
  let acc := ns.foldl
    (fun (acc : List Citation × List String) n =>
      (acc.1 ++ [mkCitation n], acc.2 ++ imagesForNode message n))
    ([], [])
  (acc.1, dedupKeepFirst acc.2)

/-! ## Image rendering (`app.py`, `render_images`) -/

/-- An image file as seen by `render_images`: whether the path exists and
`PIL` can open it, its pixel dimensions, and the MD5 digest of its byte
content (the dedup key). -/
structure FigImage where
  readable : Bool
  width : Nat
  height : Nat
  contentHash : Nat
deriving DecidableEq, Repr

/-- One iteration of the `render_images` filtering loop over the state
(accepted images, seen content hashes): skip unreadable files, require both
dimensions at least 150, require the aspect `width/height` inside
`[0.2, 5.0]` (as exact rational comparisons `width ≤ 5*height` and
`height ≤ 5*width`), and drop images whose content hash was already
accepted. -/
def renderImagesStep (st : List FigImage × List Nat) (img : FigImage) :
    List FigImage × List Nat :=
  if img.readable = false then st
  else if img.width < 150 ∨ img.height < 150 then st
  else if 5 * img.height < img.width ∨ 5 * img.width < img.height then st
  else if img.contentHash ∈ st.2 then st
  else (st.1 ++ [img], st.2 ++ [img.contentHash])

/-- The accepted images of `render_images`, in order. -/
def validImages (imgs : List FigImage) : List FigImage :=
  (imgs.foldl renderImagesStep ([], [])).1

/-- The content hashes accepted so far after filtering `imgs`. -/
def seenHashes (imgs : List FigImage) : List Nat :=
  (imgs.foldl renderImagesStep ([], [])).2

/-! ## Shape predicates for the matched spans

These characterise the strings the three matchers can return, with just
enough structure to re-run the matcher on the span wherever it occurs
(completeness) and to pin down the characters it must contain. -/

/-- A table header or data row `\|[^\n]+\|`: wrapped in pipes, at least one
character between them, no newline. -/
def RowOk (row : List Char) : Prop :=
  row.head? = some '|' ∧ row.getLast? = some '|' ∧ 3 ≤ row.length ∧ '\n' ∉ row

/-- One separator unit `\|[-:]+\|`. -/
def SepUnitOk (u : List Char) : Prop :=
  ∃ ds, ds ≠ [] ∧ (∀ c ∈ ds, isSepChar c = true) ∧ u = '|' :: (ds ++ ['|'])

/-- A full separator segment: a non-empty concatenation of units. -/
def SepsOk (seps : List Char) : Prop :=
  ∃ us : List (List Char), us ≠ [] ∧ (∀ u ∈ us, SepUnitOk u) ∧ seps = us.flatten

/-- The strings `matchTable` can return: a header row, a newline, the
separator units, a newline, a first data row, and a remainder that is
either empty or starts with a newline. -/
def ShapeTab (m : List Char) : Prop :=
  ∃ row seps u tail, RowOk row ∧ SepsOk seps ∧ RowOk u ∧
    (tail = [] ∨ tail.head? = some '\n') ∧
    m = row ++ '\n' :: (seps ++ '\n' :: (u ++ tail))

/-- The strings `matchEq2` can return: `$$`, a non-empty dollar-free body,
`$$`. -/
def ShapeEq2 (m : List Char) : Prop :=
  ∃ mid, mid ≠ [] ∧ (∀ c ∈ mid, c ≠ '$') ∧ m = '$' :: '$' :: (mid ++ ['$', '$'])

/-- The strings `matchEq1` can return: `$`, a non-empty dollar-free body,
`$`. -/
def ShapeEq1 (m : List Char) : Prop :=
  ∃ mid, mid ≠ [] ∧ (∀ c ∈ mid, c ≠ '$') ∧ m = '$' :: (mid ++ ['$'])

/-- The strings `figHead` can return: `Figure`, `Fig.` or `Fig` up to ASCII
case. -/
def FigHeadOk (h : List Char) : Prop :=
  (∃ c1 c2 c3 c4 c5 c6, h = [c1, c2, c3, c4, c5, c6] ∧ c1.toLower = 'f' ∧
      c2.toLower = 'i' ∧ c3.toLower = 'g' ∧ c4.toLower = 'u' ∧
      c5.toLower = 'r' ∧ c6.toLower = 'e') ∨
    (∃ c1 c2 c3, h = [c1, c2, c3, '.'] ∧ c1.toLower = 'f' ∧ c2.toLower = 'i' ∧
      c3.toLower = 'g') ∨
    (∃ c1 c2 c3, h = [c1, c2, c3] ∧ c1.toLower = 'f' ∧ c2.toLower = 'i' ∧
      c3.toLower = 'g')

/-- The strings `matchFig` can return: a head, whitespace, digits, a dot or
colon, a non-empty caption line, and optionally a newline plus a non-empty
continuation line. -/
def ShapeFig (m : List Char) : Prop :=
  ∃ h ws ds c body tail, FigHeadOk h ∧ ws ≠ [] ∧
    (∀ x ∈ ws, isPySpace x = true) ∧ ds ≠ [] ∧ (∀ x ∈ ds, x.isDigit = true) ∧
    (c = '.' ∨ c = ':') ∧ body ≠ [] ∧ '\n' ∉ body ∧
    (tail = [] ∨ ∃ nxt, nxt ≠ [] ∧ '\n' ∉ nxt ∧ tail = '\n' :: nxt) ∧
    m = h ++ ws ++ ds ++ c :: (body ++ tail)

/-! ## Retriever properties (claims C3, C4, C10) -/

/-- Descending order by similarity score. -/
def SortedByScore (l : List RetrievedNode) : Prop :=
  l.Pairwise (fun a b => b.score ≤ a.score)

/-- Helper: the content-type stage returns a sublist of its input. -/
theorem contentTypeFilter_sublist (nodes : List RetrievedNode)
    (contentTypes : Option (List String)) :
    List.Sublist (contentTypeFilter nodes contentTypes) nodes := by
  unfold contentTypeFilter
  match contentTypes with
  | none => exact List.Sublist.refl _
  | some cts =>
      by_cases h : cts = []
      · simp [h]
      · simp only [h, if_false, reduceIte]
        exact List.filter_sublist _

/-- Helper: every processing stage of `retrieve` returns a sublist of the
candidate list it was given. -/
theorem retrieve_sublist (rerankTopN : Nat) (candidates : List RetrievedNode)
    (contentTypes : Option (List String)) :
    List.Sublist (retrieve rerankTopN candidates contentTypes) candidates := by
  unfold retrieve
  exact (List.take_sublist _ _).trans
    ((contentTypeFilter_sublist _ _).trans (List.filter_sublist _))

/-- Claim C3: whenever the vector index hands `retrieve` a candidate list in
descending-score order, the returned list is sorted by non-increasing score
and has length at most the configured `rerank_top_n`, whether or not a
content-type filter is supplied. -/
theorem claim_C3_retrieve_sorted_bounded (rerankTopN : Nat)
    (candidates : List RetrievedNode) (contentTypes : Option (List String))
    (hs : SortedByScore candidates) :
    SortedByScore (retrieve rerankTopN candidates contentTypes) ∧
      (retrieve rerankTopN candidates contentTypes).length ≤ rerankTopN := by
  refine ⟨hs.sublist (retrieve_sublist _ _ _), ?_⟩
  unfold retrieve
  exact List.length_take_le _ _

/-- Witness for C3 at a concrete descending candidate pool, with and without
a content-type filter folded into one conjunction. -/
theorem claim_C3_witness :
    SortedByScore
        (retrieve RERANK_TOP_N
          [{ text := "a", source := none, pageNum := none, contentType := some "text",
             score := (9 : ℚ) / 10 },
           { text := "b", source := none, pageNum := none, contentType := some "table",
             score := (3 : ℚ) / 5 }] (some ["table"])) ∧
      (retrieve RERANK_TOP_N
          [{ text := "a", source := none, pageNum := none, contentType := some "text",
             score := (9 : ℚ) / 10 },
           { text := "b", source := none, pageNum := none, contentType := some "table",
             score := (3 : ℚ) / 5 }] (some ["table"])).length ≤ RERANK_TOP_N :=
  claim_C3_retrieve_sorted_bounded RERANK_TOP_N _ (some ["table"])
    (by unfold SortedByScore; simp; norm_num)

/-- Claim C4: when every candidate scores below the `0.5` cutoff, `retrieve`
returns the empty list, and `format_context_for_llm` of an empty list is the
empty string rather than an error. -/
theorem claim_C4_low_scores_empty (rerankTopN : Nat)
    (candidates : List RetrievedNode) (contentTypes : Option (List String))
    (hlow : ∀ n ∈ candidates, n.score < 1 / 2) :
    retrieve rerankTopN candidates contentTypes = [] ∧
      formatContextForLlm [] = "" := by
  refine ⟨?_, rfl⟩
  have hf : similarityFilter candidates = [] := by
    unfold similarityFilter
    rw [List.filter_eq_nil_iff]
    intro n hn
    simpa using not_le.mpr (hlow n hn)
  unfold retrieve
  rw [hf]
  match contentTypes with
  | none => simp [contentTypeFilter]
  | some cts =>
      by_cases h : cts = [] <;> simp [contentTypeFilter, h]

/-- Witness for C4: a single candidate scoring `0.42` is dropped entirely. -/
theorem claim_C4_witness :
    retrieve RERANK_TOP_N
        [{ text := "a", source := none, pageNum := none, contentType := none,
           score := (42 : ℚ) / 100 }] none = [] ∧
      formatContextForLlm [] = "" :=
  claim_C4_low_scores_empty RERANK_TOP_N _ none (by intro n hn; simp at hn; rw [hn]; norm_num)

/-- Claim C10: passing `content_types = []` takes the falsy branch of
`if content_types:` exactly like `None`, so no content-type filtering
happens and the result coincides with the unfiltered call. -/
theorem claim_C10_empty_filter_like_none (rerankTopN : Nat)
    (candidates : List RetrievedNode) :
    retrieve rerankTopN candidates (some []) =
      retrieve rerankTopN candidates none := by
  unfold retrieve
  simp [contentTypeFilter]

/-! ## Chat-session properties (claims C7, C9) -/

/-- Claim C7: the consecutive user turns "hi" and "thanks" each produce the
fixed canned reply of the greeting fast path; neither reaches the underlying
chat engine, so no vector-index retrieval and no generation-provider call
happens for them. -/
theorem claim_C7_greeting_fast_path :
    streamChat "hi".data = StreamOutcome.canned helloReply ∧
      streamChat "thanks".data = StreamOutcome.canned thanksReply := by
  constructor <;> decide

/-- Claim C9: with `GROQ_API_KEY` truthy in neither the configuration nor
the environment, `ScientificChatEngine.__init__` raises immediately; with a
non-empty key present in either place, construction succeeds, so the
missing-credential failure can only happen at session construction time. -/
theorem claim_C9_fail_fast_credential (configKey envKey : Option String)
    (habsent : (configKey = none ∨ configKey = some "") ∧
      (envKey = none ∨ envKey = some "")) :
    (∃ msg, mkChatEngine configKey envKey = Except.error msg) ∧
      (∀ cfg env : Option String, truthyStr cfg = true ∨ truthyStr env = true →
        ∃ e, mkChatEngine cfg env = Except.ok e) := by
  constructor
  · refine ⟨missingKeyMsg, ?_⟩
    obtain ⟨hc | hc, he | he⟩ := habsent <;> subst hc <;> subst he <;> rfl
  · intro cfg env hpresent
    have hkey : truthyStr (pyOrOptStr cfg env) = true := by
      unfold pyOrOptStr
      by_cases hc : truthyStr cfg = true
      · simp [hc]
      · rcases hpresent with h | h
        · exact absurd h hc
        · simpa [hc] using h
    exact ⟨{ apiKey := (pyOrOptStr cfg env).getD "" }, by simp [mkChatEngine, hkey]⟩

/-- Witness for C9: both keys absent. -/
theorem claim_C9_witness :
    (∃ msg, mkChatEngine none none = Except.error msg) ∧
      (∀ cfg env : Option String, truthyStr cfg = true ∨ truthyStr env = true →
        ∃ e, mkChatEngine cfg env = Except.ok e) :=
  claim_C9_fail_fast_credential none none ⟨Or.inl rfl, Or.inl rfl⟩

/-! ## Image association (claim C5) -/

/-- Helper: membership in the path-deduplication fold. -/
theorem mem_dedup_foldl (l : List String) :
    ∀ (acc : List String) (x : String),
      x ∈ l.foldl (fun acc i => if i ∈ acc then acc else acc ++ [i]) acc ↔
        x ∈ acc ∨ x ∈ l := by
  induction l with
  | nil => intro acc x; simp
  | cons i l ih =>
      intro acc x
      rw [List.foldl_cons, ih]
      by_cases hi : i ∈ acc
      · simp only [if_pos hi, List.mem_cons]
        constructor
        · rintro (h | h)
          · exact Or.inl h
          · exact Or.inr (Or.inr h)
        · rintro (h | h | h)
          · exact Or.inl h
          · exact Or.inl (h ▸ hi)
          · exact Or.inr h
      · simp only [if_neg hi, List.mem_append, List.mem_singleton, List.mem_cons]
        tauto

/-- Helper: deduplication preserves membership. -/
theorem mem_dedupKeepFirst (l : List String) (x : String) :
    x ∈ dedupKeepFirst l ↔ x ∈ l := by
  unfold dedupKeepFirst
  rw [mem_dedup_foldl]
  simp

/-- Claim C5: with image surfacing gated on by a visual-reference keyword,
the images surfaced for a chunk whose metadata resolves to page `P > 0` are
exactly those registered in its image map under pages `P-1`, `P` or `P+1`;
an image registered only under any other page is never surfaced. -/
theorem claim_C5_page_window (message : List Char) (n : EngineNode) (p : Nat)
    (imap : List (Nat × List String))
    (hgate : shouldExtractImages message = true)
    (hpage : resolvedPage n = some p) (hp : 0 < p)
    (hmap : n.imageMap = some imap) :
    ∀ img : String,
      img ∈ (extractSourcesAndImages message [n]).2 ↔
        (img ∈ (imap.lookup (p - 1)).getD [] ∨ img ∈ (imap.lookup p).getD [] ∨
          img ∈ (imap.lookup (p + 1)).getD []) := by
  intro img
  have himg : imagesForNode message n =
      (imap.lookup p).getD [] ++ (imap.lookup (p - 1)).getD [] ++
        (imap.lookup (p + 1)).getD [] := by
    unfold imagesForNode
    rw [hgate, hmap, hpage]
    simp [Nat.pos_iff_ne_zero.mp hp]
  have hsnd : (extractSourcesAndImages message [n]).2 =
      dedupKeepFirst (imagesForNode message n) := by
    unfold extractSourcesAndImages
    simp
  rw [hsnd, mem_dedupKeepFirst, himg]
  simp only [List.mem_append]
  tauto

/-- Witness for C5: a chunk on page 5 with images registered on pages 4, 5
and 7, checked at the concrete image path "b.png". -/
theorem claim_C5_witness :
    "b.png" ∈ (extractSourcesAndImages "show figure".data
          [{ text := [], source := none, pageLabel := some 5, pageNum := none,
             contentType := none, score := none,
             imageMap := some [(4, ["a.png"]), (5, ["b.png"]), (7, ["z.png"])] }]).2 ↔
        ("b.png" ∈ (([(4, ["a.png"]), (5, ["b.png"]), (7, ["z.png"])].lookup (5 - 1) :
            Option (List String))).getD [] ∨
          "b.png" ∈ (([(4, ["a.png"]), (5, ["b.png"]), (7, ["z.png"])].lookup 5 :
            Option (List String))).getD [] ∨
          "b.png" ∈ (([(4, ["a.png"]), (5, ["b.png"]), (7, ["z.png"])].lookup (5 + 1) :
            Option (List String))).getD []) :=
  claim_C5_page_window "show figure".data
    { text := [], source := none, pageLabel := some 5, pageNum := none,
      contentType := none, score := none,
      imageMap := some [(4, ["a.png"]), (5, ["b.png"]), (7, ["z.png"])] }
    5 [(4, ["a.png"]), (5, ["b.png"]), (7, ["z.png"])]
    (by decide) rfl (by decide) rfl "b.png"

/-! ## Image rendering filters (claim C6) -/

/-- Helper: the filtering step either leaves the accepted list unchanged or
appends the image, and it only appends images that are readable, large
enough in both dimensions and carry an unseen content hash. -/
theorem renderImagesStep_cases (acc : List FigImage × List Nat) (i : FigImage) :
    (renderImagesStep acc i).1 = acc.1 ∨
      ((renderImagesStep acc i).1 = acc.1 ++ [i] ∧ i.readable = true ∧
        150 ≤ i.width ∧ 150 ≤ i.height ∧ i.contentHash ∉ acc.2) := by
  unfold renderImagesStep
  split_ifs with h1 h2 h3 h4
  · exact Or.inl rfl
  · exact Or.inl rfl
  · exact Or.inl rfl
  · exact Or.inl rfl
  · push_neg at h2
    refine Or.inr ⟨rfl, ?_, ?_, ?_, ?_⟩
    · simpa using h1
    · exact h2.1
    · exact h2.2
    · exact h4

/-- Helper: every member of the accepted-image accumulator after the fold
was either there initially or passed the dimension filter. -/
theorem validImages_fold_mem :
    ∀ (l : List FigImage) (acc : List FigImage × List Nat) (x : FigImage),
      x ∈ (l.foldl renderImagesStep acc).1 →
        x ∈ acc.1 ∨ (150 ≤ x.width ∧ 150 ≤ x.height) := by
  intro l
  induction l with
  | nil => intro acc x hx; exact Or.inl hx
  | cons i l ih =>
      intro acc x hx
      rw [List.foldl_cons] at hx
      rcases ih (renderImagesStep acc i) x hx with h | h
      · rcases renderImagesStep_cases acc i with hc | ⟨hc, _, hw, hh, _⟩
        · exact Or.inl (hc ▸ h)
        · rw [hc, List.mem_append] at h
          rcases h with h | h
          · exact Or.inl h
          · rcases List.mem_singleton.mp h with rfl
            exact Or.inr ⟨hw, hh⟩
      · exact Or.inr h

/-- Claim C6: in `render_images`, a readable 100x100 image is always dropped
(the minimum-dimension filter requires both sides at least 150), and a
readable 300x300 image (acceptable aspect) is kept exactly when its byte
content hash has not already been accepted earlier in the same call — so the
first occurrence of a content hash is kept and later duplicates are
dropped. -/
theorem claim_C6_image_filtering :
    (∀ (l : List FigImage) (img : FigImage), img.readable = true →
      img.width = 100 → img.height = 100 → img ∉ validImages l) ∧
    (∀ (l : List FigImage) (img : FigImage), img.readable = true →
      img.width = 300 → img.height = 300 →
      validImages (l ++ [img]) =
        if img.contentHash ∈ seenHashes l then validImages l
        else validImages l ++ [img]) := by
  constructor
  · intro l img _ hw hh hmem
    rcases validImages_fold_mem l ([], []) img hmem with h | ⟨h150, _⟩
    · simp at h
    · rw [hw] at h150
      omega
  · intro l img hr hw hh
    have hstep : renderImagesStep (l.foldl renderImagesStep ([], [])) img =
        if img.contentHash ∈ (l.foldl renderImagesStep ([], [])).2 then
          l.foldl renderImagesStep ([], [])
        else ((l.foldl renderImagesStep ([], [])).1 ++ [img],
          (l.foldl renderImagesStep ([], [])).2 ++ [img.contentHash]) := by
      unfold renderImagesStep
      rw [hr, hw, hh]
      norm_num
    unfold validImages seenHashes
    rw [List.foldl_append, List.foldl_cons, List.foldl_nil, hstep]
    by_cases hmem : img.contentHash ∈ (l.foldl renderImagesStep ([], [])).2
    · rw [if_pos hmem, if_pos hmem]
    · rw [if_neg hmem, if_neg hmem]

/-- Witness for C6: a readable 100x100 icon is dropped; a duplicate-hash
300x300 image is dropped on its second occurrence. -/
theorem claim_C6_witness :
    ({ readable := true, width := 100, height := 100, contentHash := 1 : FigImage} ∉
        validImages [{ readable := true, width := 100, height := 100, contentHash := 1 }]) ∧
      validImages
          [{ readable := true, width := 300, height := 300, contentHash := 7 },
           { readable := true, width := 300, height := 300, contentHash := 7 }] =
        (if ({ readable := true, width := 300, height := 300, contentHash := 7 :
              FigImage}).contentHash ∈
            seenHashes [{ readable := true, width := 300, height := 300, contentHash := 7 }] then
          validImages [{ readable := true, width := 300, height := 300, contentHash := 7 }]
        else
          validImages [{ readable := true, width := 300, height := 300, contentHash := 7 }] ++
            [{ readable := true, width := 300, height := 300, contentHash := 7 }]) :=
  ⟨claim_C6_image_filtering.1 _ _ rfl rfl rfl,
    claim_C6_image_filtering.2
      [{ readable := true, width := 300, height := 300, contentHash := 7 }] _ rfl rfl rfl⟩

/-! ## Citation records (claim C8) -/

/-- Helper: the citation component of `_extract_sources_and_images` is the
per-node record map. -/
theorem extractSources_fst_eq_map (message : List Char) (ns : List EngineNode) :
    (extractSourcesAndImages message ns).1 = ns.map mkCitation := by
  unfold extractSourcesAndImages
  suffices h : ∀ (l : List EngineNode) (acc : List Citation × List String),
      (l.foldl (fun acc n => (acc.1 ++ [mkCitation n], acc.2 ++ imagesForNode message n))
        acc).1 = acc.1 ++ l.map mkCitation by
    simpa using h ns ([], [])
  intro l
  induction l with
  | nil => intro acc; simp
  | cons n l ih => intro acc; rw [List.foldl_cons, ih]; simp

/-- A node whose vector score is exactly zero. -/
def zeroScoreNode : EngineNode :=
  { text := "some chunk text".data, source := some "paper.pdf",
    pageLabel := some 2, pageNum := some 2, contentType := some "text",
    score := some 0, imageMap := none }

/-- Counterexample to claim C8 as stated: for a surfaced result whose
similarity score is exactly `0`, the citation record does not carry the
rounded score — Python's `round(node.score, 3) if node.score else None`
takes the falsy branch and stores `None`. -/
theorem claim_C8_counterexample :
    ((extractSourcesAndImages [] [zeroScoreNode]).1).map (fun c => c.score) ≠
      [some (round3 0)] := by
  rw [extractSources_fst_eq_map]
  simp [mkCitation, zeroScoreNode]

/-- Claim C8 (amended): one citation record per surfaced result, in order,
carrying the source filename, the page (`page_label` falling back to
`page_num` then `"?"`), the content type and a bounded text preview
(first 200 characters, ellipsis-suffixed if longer); the record carries the
similarity score rounded to 3 decimals when the score is present and
nonzero, and an empty score otherwise. -/
theorem claim_C8_amended (message : List Char) (ns : List EngineNode) (i : Nat)
    (hi : i < ns.length) :
    ((extractSourcesAndImages message ns).1).length = ns.length ∧
      ∃ hi2 : i < ((extractSourcesAndImages message ns).1).length,
        (((extractSourcesAndImages message ns).1).get ⟨i, hi2⟩).source =
            (ns.get ⟨i, hi⟩).source.getD "Unknown" ∧
          (((extractSourcesAndImages message ns).1).get ⟨i, hi2⟩).page =
            (match (ns.get ⟨i, hi⟩).pageLabel with
              | some p => toString p
              | none =>
                  match (ns.get ⟨i, hi⟩).pageNum with
                  | some p => toString p
                  | none => "?") ∧
          (((extractSourcesAndImages message ns).1).get ⟨i, hi2⟩).contentType =
            (ns.get ⟨i, hi⟩).contentType.getD "text" ∧
          (((extractSourcesAndImages message ns).1).get ⟨i, hi2⟩).score =
            (match (ns.get ⟨i, hi⟩).score with
              | none => none
              | some s => if s = 0 then none else some (round3 s)) ∧
          (((extractSourcesAndImages message ns).1).get ⟨i, hi2⟩).textPreview =
            (if 200 < (ns.get ⟨i, hi⟩).text.length then
              (ns.get ⟨i, hi⟩).text.take 200 ++ "...".data
            else (ns.get ⟨i, hi⟩).text) := by
  have hlen : ((extractSourcesAndImages message ns).1).length = ns.length := by
    rw [extractSources_fst_eq_map, List.length_map]
  refine ⟨hlen, hlen ▸ hi, ?_, ?_, ?_, ?_, ?_⟩ <;>
    simp [extractSources_fst_eq_map, mkCitation]

/-- Witness for C8 (amended) at a node with a nonzero score. -/
theorem claim_C8_amended_witness :
    ((extractSourcesAndImages [] [zeroScoreNode, zeroScoreNode]).1).length =
        [zeroScoreNode, zeroScoreNode].length ∧
      ∃ hi2 : 1 < ((extractSourcesAndImages [] [zeroScoreNode, zeroScoreNode]).1).length,
        (((extractSourcesAndImages [] [zeroScoreNode, zeroScoreNode]).1).get ⟨1, hi2⟩).source =
            ([zeroScoreNode, zeroScoreNode].get ⟨1, by decide⟩).source.getD "Unknown" ∧
          (((extractSourcesAndImages [] [zeroScoreNode, zeroScoreNode]).1).get ⟨1, hi2⟩).page =
            (match ([zeroScoreNode, zeroScoreNode].get ⟨1, by decide⟩).pageLabel with
              | some p => toString p
              | none =>
                  match ([zeroScoreNode, zeroScoreNode].get ⟨1, by decide⟩).pageNum with
                  | some p => toString p
                  | none => "?") ∧
          (((extractSourcesAndImages [] [zeroScoreNode, zeroScoreNode]).1).get
              ⟨1, hi2⟩).contentType =
            ([zeroScoreNode, zeroScoreNode].get ⟨1, by decide⟩).contentType.getD "text" ∧
          (((extractSourcesAndImages [] [zeroScoreNode, zeroScoreNode]).1).get ⟨1, hi2⟩).score =
            (match ([zeroScoreNode, zeroScoreNode].get ⟨1, by decide⟩).score with
              | none => none
              | some s => if s = 0 then none else some (round3 s)) ∧
          (((extractSourcesAndImages [] [zeroScoreNode, zeroScoreNode]).1).get
              ⟨1, hi2⟩).textPreview =
            (if 200 < ([zeroScoreNode, zeroScoreNode].get ⟨1, by decide⟩).text.length then
              ([zeroScoreNode, zeroScoreNode].get ⟨1, by decide⟩).text.take 200 ++ "...".data
            else ([zeroScoreNode, zeroScoreNode].get ⟨1, by decide⟩).text) :=
  claim_C8_amended [] [zeroScoreNode, zeroScoreNode] 1 (by decide)

/-! ## The table-extraction scenario (claim C1) -/

/-- The spec's scenario input: a sentence followed by the table
`"Revenue | Cost\n---|---\n100 | 50\n"`. -/
def c1SpecInput : List Char :=
  "The experiment results are shown below.\nRevenue | Cost\n---|---\n100 | 50\n".data

/-- The nearest input the table pattern accepts: rows delimited by pipes at
both ends and a single-cell header-separator row. -/
def c1AmendedInput : List Char :=
  "The experiment results are shown below.\n|Revenue | Cost|\n|---|\n|100 | 50|\n".data

set_option maxRecDepth 4000 in
/-- Counterexample to claim C1 as stated: on the spec's scenario input the
table pattern does not match at all (its row pattern `\|[^\n]+\|` demands a
leading and a trailing pipe on every row, and `(?:\|[-:]+\|)+` cannot parse
the separator `---|---`), so table extraction yields no chunk and the
removal pass leaves the text without any placeholder. -/
theorem claim_C1_counterexample :
    extractTables c1SpecInput = [] ∧
      ¬ tablePlaceholder <:+: removeSpecialContent c1SpecInput := by
  constructor
  · decide
  · decide

set_option maxRecDepth 4000 in
/-- Claim C1 (amended): for a sentence followed by the fully pipe-delimited
table `"|Revenue | Cost|\n|---|\n|100 | 50|\n"`, table extraction yields
exactly one `table` chunk, its body starts with `TABLE:` and contains the
pipe rows, and the residual text carries the `[TABLE REMOVED]` placeholder
in place of the table block. -/
theorem claim_C1_amended :
    (extractTables c1AmendedInput).map (fun n => n.contentType) = ["table"] ∧
      "TABLE:".data <+: headText (extractTables c1AmendedInput) ∧
      "|Revenue | Cost|\n|---|\n|100 | 50|\n".data <:+:
        headText (extractTables c1AmendedInput) ∧
      tablePlaceholder <:+: removeSpecialContent c1AmendedInput := by
  refine ⟨by decide, by decide, by decide, by decide⟩

/-! ## Generic facts about the scanner and the substitution pass

`pat` ranges over anchored matchers; `psound` states that a match is a
non-empty prefix of the input. -/

/-- Unfolding equation: no fuel. -/
theorem subAllF_zero (pat : List Char → Option (List Char × List Char))
    (repl t) : subAllF pat repl 0 t = t := by
  rw [subAllF]

/-- Unfolding equation: empty text. -/
theorem subAllF_nil (pat : List Char → Option (List Char × List Char))
    (repl fuel) : subAllF pat repl fuel [] = [] := by
  cases fuel <;> rfl

/-- Unfolding equation: a match at the current position is replaced. -/
theorem subAllF_cons_some {pat : List Char → Option (List Char × List Char)}
    {repl : List Char} {fuel : Nat} {c : Char} {cs m r : List Char}
    (h : pat (c :: cs) = some (m, r)) :
    subAllF pat repl (fuel + 1) (c :: cs) = repl ++ subAllF pat repl fuel r := by
  rw [subAllF, h]

/-- Unfolding equation: no match at the current position. -/
theorem subAllF_cons_none {pat : List Char → Option (List Char × List Char)}
    {repl : List Char} {fuel : Nat} {c : Char} {cs : List Char}
    (h : pat (c :: cs) = none) :
    subAllF pat repl (fuel + 1) (c :: cs) = c :: subAllF pat repl fuel cs := by
  rw [subAllF, h]

/-- Unfolding equation: no fuel. -/
theorem findAllF_zero (pat : List Char → Option (List Char × List Char))
    (t) : findAllF pat 0 t = [] := by
  rw [findAllF]

/-- Unfolding equation: empty text. -/
theorem findAllF_nil (pat : List Char → Option (List Char × List Char))
    (fuel) : findAllF pat fuel [] = [] := by
  cases fuel <;> rfl

/-- Unfolding equation: a match at the current position is reported. -/
theorem findAllF_cons_some {pat : List Char → Option (List Char × List Char)}
    {fuel : Nat} {c : Char} {cs m r : List Char}
    (h : pat (c :: cs) = some (m, r)) :
    findAllF pat (fuel + 1) (c :: cs) = m :: findAllF pat fuel r := by
  rw [findAllF, h]

/-- Unfolding equation: no match at the current position. -/
theorem findAllF_cons_none {pat : List Char → Option (List Char × List Char)}
    {fuel : Nat} {c : Char} {cs : List Char}
    (h : pat (c :: cs) = none) :
    findAllF pat (fuel + 1) (c :: cs) = findAllF pat fuel cs := by
  rw [findAllF, h]

/-- Decomposing a prefix of an append. -/
theorem prefix_append_split {α : Type} {u x y : List α} (h : u <+: x ++ y) :
    u <+: x ∨ ∃ b, u = x ++ b ∧ b <+: y := by
  induction x generalizing u with
  | nil => exact Or.inr ⟨u, rfl, h⟩
  | cons c x ih =>
      cases u with
      | nil => exact Or.inl List.nil_prefix
      | cons u0 u' =>
          rw [List.cons_append, List.cons_prefix_cons] at h
          obtain ⟨rfl, h⟩ := h
          rcases ih h with h | ⟨b, rfl, hb⟩
          · exact Or.inl (List.cons_prefix_cons.mpr ⟨rfl, h⟩)
          · exact Or.inr ⟨b, by simp, hb⟩

/-- Decomposing an infix of an append: it sits in the left part, in the
right part, or straddles the boundary. -/
theorem infix_append_split {α : Type} {S x y : List α} (h : S <:+: x ++ y) :
    S <:+: x ∨ S <:+: y ∨
      ∃ a b, S = a ++ b ∧ a ≠ [] ∧ b ≠ [] ∧ a <:+ x ∧ b <+: y := by
  induction x generalizing S with
  | nil => exact Or.inr (Or.inl h)
  | cons c x ih =>
      rw [List.cons_append, List.infix_cons_iff] at h
      rcases h with h | h
      · cases S with
        | nil => exact Or.inl List.nil_infix
        | cons s0 S' =>
            rw [List.cons_prefix_cons] at h
            obtain ⟨rfl, h⟩ := h
            rcases prefix_append_split h with h | ⟨b, rfl, hb⟩
            · exact Or.inl (List.cons_prefix_cons.mpr ⟨rfl, h⟩).isInfix
            · cases b with
              | nil =>
                  refine Or.inl ?_
                  have hx : s0 :: (x ++ ([] : List α)) = s0 :: x := by simp
                  rw [hx]
              | cons b0 b' =>
                  exact Or.inr (Or.inr ⟨s0 :: x, b0 :: b', by simp, by simp,
                    by simp, List.suffix_refl _, hb⟩)
      · rcases ih h with h | h | ⟨a, b, rfl, hane, hbne, ha, hb⟩
        · exact Or.inl (List.infix_cons h)
        · exact Or.inr (Or.inl h)
        · exact Or.inr (Or.inr ⟨a, b, rfl, hane, hbne,
            ha.trans (List.suffix_cons c x), hb⟩)

/-- A non-empty suffix shares the last entry of the whole list. -/
theorem getLast?_of_suffix {α : Type} {a x : List α} (h : a <:+ x)
    (ha : a ≠ []) : a.getLast? = x.getLast? := by
  obtain ⟨w, rfl⟩ := h
  rw [List.getLast?_append]
  cases hgl : a.getLast? with
  | none => exact absurd (List.getLast?_eq_none_iff.mp hgl) ha
  | some v => rfl

/-- Every match the scanner reports was produced by the matcher on some
suffix of the text. -/
theorem findAllF_sound (pat : List Char → Option (List Char × List Char))
    (psound : ∀ t m r, pat t = some (m, r) → t = m ++ r ∧ m ≠ []) :
    ∀ (fuel : Nat) (t : List Char), ∀ m ∈ findAllF pat fuel t,
      ∃ tall r, pat tall = some (m, r) ∧ tall <:+ t := by
  intro fuel
  induction fuel with
  | zero => intro t m hm; rw [findAllF_zero] at hm; simp at hm
  | succ f ih =>
      intro t m hm
      match t with
      | [] => rw [findAllF_nil] at hm; simp at hm
      | c :: cs =>
          cases hpat : pat (c :: cs) with
          | some p =>
              rw [findAllF_cons_some hpat] at hm
              rcases List.mem_cons.mp hm with rfl | hm
              · exact ⟨c :: cs, p.2, hpat, List.suffix_refl _⟩
              · obtain ⟨tall, r, hp, hsuf⟩ := ih p.2 m hm
                refine ⟨tall, r, hp, hsuf.trans ?_⟩
                obtain ⟨heq, -⟩ := psound _ _ _ hpat
                exact heq ▸ List.suffix_append p.1 p.2
          | none =>
              rw [findAllF_cons_none hpat] at hm
              obtain ⟨tall, r, hp, hsuf⟩ := ih cs m hm
              exact ⟨tall, r, hp, hsuf.trans (List.suffix_cons c cs)⟩

/-- A matched span is an infix of the scanned text. -/
theorem findAllF_infix (pat : List Char → Option (List Char × List Char))
    (psound : ∀ t m r, pat t = some (m, r) → t = m ++ r ∧ m ≠ []) :
    ∀ (fuel : Nat) (t : List Char), ∀ m ∈ findAllF pat fuel t, m <:+: t := by
  intro fuel t m hm
  obtain ⟨tall, r, hp, hsuf⟩ := findAllF_sound pat psound fuel t m hm
  obtain ⟨heq, -⟩ := psound _ _ _ hp
  exact ((heq ▸ List.prefix_append m r : m <+: tall).isInfix).trans hsuf.isInfix

/-- A bracket-free prefix of the substituted text is a prefix of the
original text: replacements all start with `[`. -/
theorem prefix_of_prefix_subAllF
    (pat : List Char → Option (List Char × List Char))
    (repl : List Char) (hrh : repl.head? = some '[') :
    ∀ (fuel : Nat) (t u : List Char), (∀ c ∈ u, c ≠ '[') →
      u <+: subAllF pat repl fuel t → u <+: t := by
  obtain ⟨repl', rfl⟩ : ∃ r', repl = '[' :: r' := by
    cases repl with
    | nil => simp at hrh
    | cons a r' =>
        simp only [List.head?_cons, Option.some.injEq] at hrh
        exact ⟨r', by rw [hrh]⟩
  intro fuel
  induction fuel with
  | zero => intro t u _ hu; rw [subAllF_zero] at hu; exact hu
  | succ f ih =>
      intro t u hnb hu
      match t with
      | [] => rw [subAllF_nil] at hu; exact hu
      | c :: cs =>
          cases hpat : pat (c :: cs) with
          | some p =>
              rw [subAllF_cons_some hpat] at hu
              cases u with
              | nil => exact List.nil_prefix
              | cons u0 u' =>
                  exfalso
                  rw [List.cons_append, List.cons_prefix_cons] at hu
                  exact hnb u0 (List.mem_cons_self _ _) hu.1
          | none =>
              rw [subAllF_cons_none hpat] at hu
              cases u with
              | nil => exact List.nil_prefix
              | cons u0 u' =>
                  rw [List.cons_prefix_cons] at hu
                  obtain ⟨rfl, hu⟩ := hu
                  have := ih cs u' (fun x hx => hnb x (List.mem_cons_of_mem _ hx)) hu
                  exact List.cons_prefix_cons.mpr ⟨rfl, this⟩

/-- Substitution does not create a new occurrence of a bracket-free span
that contains a character foreign to the replacement: if the span was absent
it stays absent. -/
theorem not_infix_subAllF_of_not_infix
    (pat : List Char → Option (List Char × List Char))
    (psound : ∀ t m r, pat t = some (m, r) → t = m ++ r ∧ m ≠ [])
    (repl S : List Char) (hSne : S ≠ [])
    (hSnb : ∀ c ∈ S, c ≠ '[' ∧ c ≠ ']')
    (hd : ∃ d ∈ S, d ∉ repl)
    (hrh : repl.head? = some '[') (hrl : repl.getLast? = some ']') :
    ∀ (fuel : Nat) (t : List Char), t.length ≤ fuel → ¬ S <:+: t →
      ¬ S <:+: subAllF pat repl fuel t := by
  intro fuel
  induction fuel with
  | zero => intro t _ habs hS; rw [subAllF_zero] at hS; exact habs hS
  | succ f ih =>
      intro t hlen habs hS
      match t with
      | [] => rw [subAllF_nil] at hS; exact hSne (List.infix_nil.mp hS)
      | c :: cs =>
          cases hpat : pat (c :: cs) with
          | some p =>
              rw [subAllF_cons_some hpat] at hS
              obtain ⟨heq, hmne⟩ := psound _ _ _ hpat
              rcases infix_append_split hS with h | h | ⟨a, b, hab, hane, hbne, ha, hb⟩
              · obtain ⟨d, hdS, hdrepl⟩ := hd
                exact hdrepl (h.subset hdS)
              · have hrlen : p.2.length ≤ f := by
                  have h2 : (c :: cs).length = p.1.length + p.2.length := by
                    rw [heq, List.length_append]
                  have hm1 : 1 ≤ p.1.length := List.length_pos.mpr hmne
                  simp only [List.length_cons] at hlen h2
                  omega
                refine ih p.2 hrlen ?_ h
                intro hSr
                exact habs (hSr.trans (heq ▸ List.suffix_append p.1 p.2).isInfix)
              · have hmem : (']' : Char) ∈ a :=
                  List.mem_of_getLast?_eq_some ((getLast?_of_suffix ha hane).trans hrl)
                exact ((hSnb ']' (hab ▸ List.mem_append.mpr (Or.inl hmem))).2) rfl
          | none =>
              rw [subAllF_cons_none hpat] at hS
              rcases List.infix_cons_iff.mp hS with h | h
              · cases S with
                | nil => exact hSne rfl
                | cons s0 S' =>
                    rw [List.cons_prefix_cons] at h
                    obtain ⟨rfl, h⟩ := h
                    have hpre := prefix_of_prefix_subAllF pat repl hrh f cs S'
                      (fun x hx => (hSnb x (List.mem_cons_of_mem _ hx)).1) h
                    exact habs (List.cons_prefix_cons.mpr ⟨rfl, hpre⟩).isInfix
              · have hlen2 : cs.length ≤ f := by
                  simp only [List.length_cons] at hlen; omega
                refine ih cs hlen2 ?_ h
                intro hcs
                exact habs (List.infix_cons hcs)

/-- The substituted text contains no occurrence of any span on which the
matcher is guaranteed to fire: every such occurrence would have been
replaced. -/
theorem not_infix_subAllF
    (pat : List Char → Option (List Char × List Char))
    (psound : ∀ t m r, pat t = some (m, r) → t = m ++ r ∧ m ≠ [])
    (repl S : List Char) (hSne : S ≠ [])
    (hSnb : ∀ c ∈ S, c ≠ '[' ∧ c ≠ ']')
    (hd : ∃ d ∈ S, d ∉ repl)
    (hrh : repl.head? = some '[') (hrl : repl.getLast? = some ']')
    (hcomp : ∀ t', (pat (S ++ t')).isSome) :
    ∀ (fuel : Nat) (t : List Char), t.length ≤ fuel →
      ¬ S <:+: subAllF pat repl fuel t := by
  intro fuel
  induction fuel with
  | zero =>
      intro t hlen hS
      rw [subAllF_zero, List.length_eq_zero.mp (Nat.le_zero.mp hlen)] at hS
      exact hSne (List.infix_nil.mp hS)
  | succ f ih =>
      intro t hlen hS
      match t with
      | [] => rw [subAllF_nil] at hS; exact hSne (List.infix_nil.mp hS)
      | c :: cs =>
          cases hpat : pat (c :: cs) with
          | some p =>
              rw [subAllF_cons_some hpat] at hS
              obtain ⟨heq, hmne⟩ := psound _ _ _ hpat
              rcases infix_append_split hS with h | h | ⟨a, b, hab, hane, hbne, ha, hb⟩
              · obtain ⟨d, hdS, hdrepl⟩ := hd
                exact hdrepl (h.subset hdS)
              · have hrlen : p.2.length ≤ f := by
                  have h2 : (c :: cs).length = p.1.length + p.2.length := by
                    rw [heq, List.length_append]
                  have hm1 : 1 ≤ p.1.length := List.length_pos.mpr hmne
                  simp only [List.length_cons] at hlen h2
                  omega
                exact ih p.2 hrlen h
              · have hmem : (']' : Char) ∈ a :=
                  List.mem_of_getLast?_eq_some ((getLast?_of_suffix ha hane).trans hrl)
                exact ((hSnb ']' (hab ▸ List.mem_append.mpr (Or.inl hmem))).2) rfl
          | none =>
              rw [subAllF_cons_none hpat] at hS
              rcases List.infix_cons_iff.mp hS with h | h
              · cases S with
                | nil => exact hSne rfl
                | cons s0 S' =>
                    rw [List.cons_prefix_cons] at h
                    obtain ⟨rfl, h⟩ := h
                    have hpre := prefix_of_prefix_subAllF pat repl hrh f cs S'
                      (fun x hx => (hSnb x (List.mem_cons_of_mem _ hx)).1) h
                    obtain ⟨t', ht'⟩ := List.cons_prefix_cons.mpr ⟨rfl, hpre⟩
                    have hfire := hcomp t'
                    rw [ht', hpat] at hfire
                    simp at hfire
              · have hlen2 : cs.length ≤ f := by
                  simp only [List.length_cons] at hlen; omega
                exact ih cs hlen2 h

/-! ## Soundness and completeness of the equation matchers -/

/-- Soundness of the block-equation matcher. -/
theorem matchEq2_sound {t m r : List Char} (h : matchEq2 t = some (m, r)) :
    t = m ++ r ∧ m ≠ [] ∧ ShapeEq2 m := by
  unfold matchEq2 at h
  split at h
  next t1 =>
    by_cases hmid : t1.takeWhile notDollar = []
    · rw [if_pos hmid] at h
      exact absurd h (by simp)
    · rw [if_neg hmid] at h
      split at h
      next r2 heq =>
        obtain ⟨hm, hr⟩ : '$' :: '$' :: (t1.takeWhile notDollar ++ ['$', '$']) = m ∧ r2 = r :=
          ⟨congrArg Prod.fst (Option.some.inj h), congrArg Prod.snd (Option.some.inj h)⟩
        subst hm
        subst hr
        have hsplit := List.takeWhile_append_dropWhile (p := notDollar) (l := t1)
        rw [heq] at hsplit
        refine ⟨?_, by simp, ?_⟩
        · conv_lhs => rw [← hsplit]
          simp
        · exact ⟨t1.takeWhile notDollar, hmid,
            fun c hc => by simpa [notDollar] using List.mem_takeWhile_imp hc, rfl⟩
      next => exact absurd h (by simp)
  next => exact absurd h (by simp)

/-- Soundness of the inline-equation matcher. -/
theorem matchEq1_sound {t m r : List Char} (h : matchEq1 t = some (m, r)) :
    t = m ++ r ∧ m ≠ [] ∧ ShapeEq1 m := by
  unfold matchEq1 at h
  split at h
  next t1 =>
    by_cases hmid : t1.takeWhile notDollar = []
    · rw [if_pos hmid] at h
      exact absurd h (by simp)
    · rw [if_neg hmid] at h
      split at h
      next r2 heq =>
        obtain ⟨hm, hr⟩ : '$' :: (t1.takeWhile notDollar ++ ['$']) = m ∧ r2 = r :=
          ⟨congrArg Prod.fst (Option.some.inj h), congrArg Prod.snd (Option.some.inj h)⟩
        subst hm
        subst hr
        have hsplit := List.takeWhile_append_dropWhile (p := notDollar) (l := t1)
        rw [heq] at hsplit
        refine ⟨?_, by simp, ?_⟩
        · conv_lhs => rw [← hsplit]
          simp
        · exact ⟨t1.takeWhile notDollar, hmid,
            fun c hc => by simpa [notDollar] using List.mem_takeWhile_imp hc, rfl⟩
      next => exact absurd h (by simp)
  next => exact absurd h (by simp)

/-- Soundness of the full equation matcher. -/
theorem matchEqFull_sound {t m r : List Char} (h : matchEqFull t = some (m, r)) :
    t = m ++ r ∧ m ≠ [] ∧ (ShapeEq2 m ∨ ShapeEq1 m) := by
  unfold matchEqFull at h
  cases h2 : matchEq2 t with
  | some p =>
      rw [h2] at h
      obtain rfl : p = (m, r) := Option.some.inj h
      obtain ⟨ha, hb, hc⟩ := matchEq2_sound h2
      exact ⟨ha, hb, Or.inl hc⟩
  | none =>
      rw [h2] at h
      obtain ⟨ha, hb, hc⟩ := matchEq1_sound h
      exact ⟨ha, hb, Or.inr hc⟩

/-- Packaged soundness for the generic lemmas. -/
theorem matchEq2_psound : ∀ t m r, matchEq2 t = some (m, r) → t = m ++ r ∧ m ≠ [] :=
  fun _ _ _ h => ⟨(matchEq2_sound h).1, (matchEq2_sound h).2.1⟩

/-- Packaged soundness for the generic lemmas. -/
theorem matchEqFull_psound : ∀ t m r, matchEqFull t = some (m, r) → t = m ++ r ∧ m ≠ [] :=
  fun _ _ _ h => ⟨(matchEqFull_sound h).1, (matchEqFull_sound h).2.1⟩

/-- Completeness of the block-equation matcher: it fires on any text whose
head is a block-equation span. -/
theorem matchEq2_complete {m : List Char} (hS : ShapeEq2 m) (t' : List Char) :
    (matchEq2 (m ++ t')).isSome := by
  obtain ⟨mid, hne, hnd, rfl⟩ := hS
  have htw : (mid ++ '$' :: '$' :: t').takeWhile notDollar = mid := by
    have : ∀ c ∈ mid, notDollar c = true := fun c hc => by
      simpa [notDollar] using hnd c hc
    rw [List.takeWhile_append_of_pos this]
    simp [notDollar]
  have hdw : (mid ++ '$' :: '$' :: t').dropWhile notDollar = '$' :: '$' :: t' := by
    have : ∀ c ∈ mid, notDollar c = true := fun c hc => by
      simpa [notDollar] using hnd c hc
    rw [List.dropWhile_append_of_pos this]
    simp [notDollar]
  have harr : ('$' :: '$' :: (mid ++ ['$', '$'])) ++ t' =
      '$' :: '$' :: (mid ++ '$' :: '$' :: t') := by simp
  rw [harr]
  simp only [matchEq2]
  rw [htw, hdw]
  simp [hne]

/-! ## Soundness and completeness of the figure matcher -/

/-- Enumerating the Python whitespace class. -/
theorem isPySpace_elim {c : Char} (h : isPySpace c = true) :
    c = ' ' ∨ c = '\t' ∨ c = '\n' ∨ c = '\r' ∨ c = '\x0b' ∨ c = '\x0c' := by
  simp only [isPySpace, Bool.or_eq_true, decide_eq_true_eq] at h
  tauto

/-- Whitespace is neither a dot nor (after lowering) the letter `u`. -/
theorem isPySpace_not_dot_u {c : Char} (h : isPySpace c = true) :
    c ≠ '.' ∧ c.toLower ≠ 'u' := by
  rcases isPySpace_elim h with rfl | rfl | rfl | rfl | rfl | rfl <;> exact ⟨by decide, by decide⟩

/-- A digit is not Python whitespace. -/
theorem isPySpace_eq_false_of_isDigit {c : Char} (h : c.isDigit = true) :
    isPySpace c = false := by
  cases hsp : isPySpace c
  · rfl
  · exfalso
    rcases isPySpace_elim hsp with rfl | rfl | rfl | rfl | rfl | rfl <;> simp at h

/-- A dot or colon is not a digit. -/
theorem dot_colon_not_digit {c : Char} (h : c = '.' ∨ c = ':') :
    c.isDigit = false := by
  rcases h with rfl | rfl <;> decide

/-- Soundness of the figure-head matcher. -/
theorem figHead_sound {t h r : List Char} (hh : figHead t = some (h, r)) :
    t = h ++ r ∧ FigHeadOk h := by
  unfold figHead at hh
  split at hh
  next c1 c2 c3 rest =>
    split at hh
    next hfig =>
      simp only [Bool.and_eq_true, decide_eq_true_eq] at hfig
      obtain ⟨⟨h1, h2⟩, h3⟩ := hfig
      split at hh
      next c4 c5 c6 rest2 =>
        split at hh
        next hure =>
          simp only [Bool.and_eq_true, decide_eq_true_eq] at hure
          obtain ⟨⟨h4, h5⟩, h6⟩ := hure
          obtain ⟨rfl, rfl⟩ : [c1, c2, c3, c4, c5, c6] = h ∧ rest2 = r :=
            ⟨congrArg Prod.fst (Option.some.inj hh),
              congrArg Prod.snd (Option.some.inj hh)⟩
          exact ⟨by simp, Or.inl ⟨c1, c2, c3, c4, c5, c6, rfl, h1, h2, h3, h4, h5, h6⟩⟩
        next hure =>
          split at hh
          next r2 heq =>
            obtain ⟨rfl, rfl⟩ : [c1, c2, c3, '.'] = h ∧ r2 = r :=
              ⟨congrArg Prod.fst (Option.some.inj hh),
                congrArg Prod.snd (Option.some.inj hh)⟩
            rw [heq]
            exact ⟨by simp, Or.inr (Or.inl ⟨c1, c2, c3, rfl, h1, h2, h3⟩)⟩
          next heq =>
            obtain ⟨rfl, rfl⟩ : [c1, c2, c3] = h ∧ c4 :: c5 :: c6 :: rest2 = r :=
              ⟨congrArg Prod.fst (Option.some.inj hh),
                congrArg Prod.snd (Option.some.inj hh)⟩
            exact ⟨by simp, Or.inr (Or.inr ⟨c1, c2, c3, rfl, h1, h2, h3⟩)⟩
      next r2 heq =>
        obtain ⟨rfl, rfl⟩ : [c1, c2, c3, '.'] = h ∧ r2 = r :=
          ⟨congrArg Prod.fst (Option.some.inj hh),
            congrArg Prod.snd (Option.some.inj hh)⟩
        exact ⟨by simp, Or.inr (Or.inl ⟨c1, c2, c3, rfl, h1, h2, h3⟩)⟩
      next heq1 heq2 =>
        obtain ⟨rfl, rfl⟩ : [c1, c2, c3] = h ∧ rest = r :=
          ⟨congrArg Prod.fst (Option.some.inj hh),
            congrArg Prod.snd (Option.some.inj hh)⟩
        exact ⟨by simp, Or.inr (Or.inr ⟨c1, c2, c3, rfl, h1, h2, h3⟩)⟩
    next => exact absurd hh (by simp)
  next => exact absurd hh (by simp)

/-- A `takeWhile` over an append stops exactly at a failing head. -/
theorem takeWhile_append_stop {p : Char → Bool} {xs ys : List Char}
    (hall : ∀ x ∈ xs, p x = true)
    (hstop : ∀ w, ys.head? = some w → p w = false) :
    (xs ++ ys).takeWhile p = xs := by
  rw [List.takeWhile_append_of_pos hall]
  cases ys with
  | nil => simp
  | cons w ys' =>
      rw [List.takeWhile_cons_of_neg (by simp [hstop w rfl])]
      simp

/-- A `dropWhile` over an append stops exactly at a failing head. -/
theorem dropWhile_append_stop {p : Char → Bool} {xs ys : List Char}
    (hall : ∀ x ∈ xs, p x = true)
    (hstop : ∀ w, ys.head? = some w → p w = false) :
    (xs ++ ys).dropWhile p = ys := by
  rw [List.dropWhile_append_of_pos hall]
  cases ys with
  | nil => simp
  | cons w ys' => rw [List.dropWhile_cons_of_neg (by simp [hstop w rfl])]

/-- Soundness of the figure matcher. -/
theorem matchFig_sound {t m r : List Char} (hh : matchFig t = some (m, r)) :
    t = m ++ r ∧ m ≠ [] ∧ ShapeFig m := by
  unfold matchFig at hh
  split at hh
  next => exact absurd hh (by simp)
  next hd t1 hfh =>
    obtain ⟨rfl, hok⟩ := figHead_sound hfh
    by_cases hws : t1.takeWhile isPySpace = []
    · rw [if_pos hws] at hh
      exact absurd hh (by simp)
    · rw [if_neg hws] at hh
      by_cases hds : (t1.dropWhile isPySpace).takeWhile Char.isDigit = []
      · rw [if_pos hds] at hh
        exact absurd hh (by simp)
      · rw [if_neg hds] at hh
        split at hh
        next c t3 heq2 =>
          by_cases hc : (c = '.' || c = ':') = true
          · rw [if_pos hc] at hh
            simp only [Bool.or_eq_true, decide_eq_true_eq] at hc
            by_cases hbody : t3.takeWhile notNL = []
            · rw [if_pos hbody] at hh
              exact absurd hh (by simp)
            · rw [if_neg hbody] at hh
              have ht1 : t1 = t1.takeWhile isPySpace ++
                  ((t1.dropWhile isPySpace).takeWhile Char.isDigit ++ c :: t3) := by
                conv_lhs => rw [← List.takeWhile_append_dropWhile (p := isPySpace) (l := t1)]
                congr 1
                conv_lhs => rw [← List.takeWhile_append_dropWhile (p := Char.isDigit)
                  (l := t1.dropWhile isPySpace)]
                rw [heq2]
              have ht3 : t3 = t3.takeWhile notNL ++ t3.dropWhile notNL :=
                (List.takeWhile_append_dropWhile (p := notNL) (l := t3)).symm
              have hwall : ∀ x ∈ t1.takeWhile isPySpace, isPySpace x = true :=
                fun x hx => List.mem_takeWhile_imp hx
              have hdall : ∀ x ∈ (t1.dropWhile isPySpace).takeWhile Char.isDigit,
                  x.isDigit = true := fun x hx => List.mem_takeWhile_imp hx
              have hbnl : ('\n' : Char) ∉ t3.takeWhile notNL := by
                intro hmem
                have := List.mem_takeWhile_imp hmem
                simp [notNL] at this
              dsimp only at hh
              split at hh
              next heq5 =>
                rename_i t5
                by_cases hnxt : t5.takeWhile notNL = []
                · rw [if_pos hnxt] at hh
                  obtain ⟨rfl, rfl⟩ :
                      hd ++ t1.takeWhile isPySpace ++
                        (t1.dropWhile isPySpace).takeWhile Char.isDigit ++
                        c :: t3.takeWhile notNL = m ∧ t3.dropWhile notNL = r :=
                    ⟨congrArg Prod.fst (Option.some.inj hh),
                      congrArg Prod.snd (Option.some.inj hh)⟩
                  refine ⟨?_, by simp, ?_⟩
                  · conv_lhs => rw [ht1]
                    conv_lhs => rw [show c :: t3 = c :: (t3.takeWhile notNL ++
                        t3.dropWhile notNL) from by rw [← ht3]]
                    simp
                  · refine ⟨hd, t1.takeWhile isPySpace,
                      (t1.dropWhile isPySpace).takeWhile Char.isDigit, c,
                      t3.takeWhile notNL, [], hok, hws, hwall, hds, hdall, hc,
                      hbody, hbnl, Or.inl rfl, by simp⟩
                · rw [if_neg hnxt] at hh
                  obtain ⟨rfl, rfl⟩ :
                      hd ++ t1.takeWhile isPySpace ++
                        (t1.dropWhile isPySpace).takeWhile Char.isDigit ++
                        c :: (t3.takeWhile notNL ++ '\n' :: t5.takeWhile notNL) = m ∧
                        t5.dropWhile notNL = r :=
                    ⟨congrArg Prod.fst (Option.some.inj hh),
                      congrArg Prod.snd (Option.some.inj hh)⟩
                  have hnnl : ('\n' : Char) ∉ t5.takeWhile notNL := by
                    intro hmem
                    have := List.mem_takeWhile_imp hmem
                    simp [notNL] at this
                  refine ⟨?_, by simp, ?_⟩
                  · conv_lhs => rw [ht1]
                    conv_lhs => rw [show c :: t3 = c :: (t3.takeWhile notNL ++
                        t3.dropWhile notNL) from by rw [← ht3]]
                    rw [show t3.dropWhile notNL = '\n' :: t5 from by assumption]
                    conv_lhs => rw [show (t5 : List Char) = t5.takeWhile notNL ++
                        t5.dropWhile notNL from
                      (List.takeWhile_append_dropWhile (p := notNL) (l := t5)).symm]
                    simp
                  · refine ⟨hd, t1.takeWhile isPySpace,
                      (t1.dropWhile isPySpace).takeWhile Char.isDigit, c,
                      t3.takeWhile notNL, '\n' :: t5.takeWhile notNL, hok, hws,
                      hwall, hds, hdall, hc, hbody, hbnl,
                      Or.inr ⟨t5.takeWhile notNL, hnxt, hnnl, rfl⟩, by simp⟩
              next hne =>
                obtain ⟨rfl, rfl⟩ :
                    hd ++ t1.takeWhile isPySpace ++
                      (t1.dropWhile isPySpace).takeWhile Char.isDigit ++
                      c :: t3.takeWhile notNL = m ∧ t3.dropWhile notNL = r :=
                  ⟨congrArg Prod.fst (Option.some.inj hh),
                    congrArg Prod.snd (Option.some.inj hh)⟩
                refine ⟨?_, by simp, ?_⟩
                · conv_lhs => rw [ht1]
                  conv_lhs => rw [show c :: t3 = c :: (t3.takeWhile notNL ++
                      t3.dropWhile notNL) from by rw [← ht3]]
                  simp
                · refine ⟨hd, t1.takeWhile isPySpace,
                    (t1.dropWhile isPySpace).takeWhile Char.isDigit, c,
                    t3.takeWhile notNL, [], hok, hws, hwall, hds, hdall, hc,
                    hbody, hbnl, Or.inl rfl, by simp⟩
          · rw [if_neg hc] at hh
            exact absurd hh (by simp)
        next => exact absurd hh (by simp)

/-- Packaged soundness for the generic lemmas. -/
theorem matchFig_psound : ∀ t m r, matchFig t = some (m, r) → t = m ++ r ∧ m ≠ [] :=
  fun _ _ _ h => ⟨(matchFig_sound h).1, (matchFig_sound h).2.1⟩

/-- Completeness of the figure-head matcher: on a recognised head followed
by whitespace it consumes exactly the head. -/
theorem figHead_complete {h rest : List Char} (hok : FigHeadOk h)
    (hrest : ∀ w, rest.head? = some w → isPySpace w = true) :
    figHead (h ++ rest) = some (h, rest) := by
  rcases hok with ⟨c1, c2, c3, c4, c5, c6, rfl, h1, h2, h3, h4, h5, h6⟩ |
    ⟨c1, c2, c3, rfl, h1, h2, h3⟩ | ⟨c1, c2, c3, rfl, h1, h2, h3⟩
  · simp [figHead, h1, h2, h3, h4, h5, h6]
  · match rest with
    | [] => simp [figHead, h1, h2, h3]
    | [w] => simp [figHead, h1, h2, h3]
    | w1 :: w2 :: rest' => simp [figHead, h1, h2, h3]
  · match rest with
    | [] => simp [figHead, h1, h2, h3]
    | [w] =>
        have hw := isPySpace_not_dot_u (hrest w rfl)
        simp only [figHead, h1, h2, h3, List.cons_append, List.nil_append]
        simp [hw.1]
    | w1 :: w2 :: rest' =>
        have hw := isPySpace_not_dot_u (hrest w1 rfl)
        match rest' with
        | [] =>
            simp only [figHead, h1, h2, h3, List.cons_append, List.nil_append]
            simp [hw.1, hw.2]
        | w3 :: rest'' =>
            simp only [figHead, h1, h2, h3, List.cons_append, List.nil_append]
            simp [hw.1, hw.2]

/-- Completeness of the figure matcher: it fires on any text whose head is a
figure span. -/
theorem matchFig_complete {m : List Char} (hS : ShapeFig m) (t' : List Char) :
    (matchFig (m ++ t')).isSome := by
  obtain ⟨h, ws, ds, c, body, tail, hok, hwne, hwall, hdne, hdall, hc, hbne,
    hbnl, htail, rfl⟩ := hS
  have harr : (h ++ ws ++ ds ++ c :: (body ++ tail)) ++ t' =
      h ++ (ws ++ (ds ++ c :: (body ++ (tail ++ t')))) := by simp
  rw [harr]
  have hwhead : ∀ w, (ws ++ (ds ++ c :: (body ++ (tail ++ t')))).head? = some w →
      isPySpace w = true := by
    intro w hw
    match ws, hwne with
    | w0 :: ws', _ =>
        simp only [List.cons_append, List.head?_cons, Option.some.injEq] at hw
        exact hw ▸ hwall w0 (List.mem_cons_self _ _)
  rw [matchFig, figHead_complete hok hwhead]
  dsimp only
  have hdhead : ∀ w, (ds ++ c :: (body ++ (tail ++ t'))).head? = some w →
      isPySpace w = false := by
    intro w hw
    match ds, hdne with
    | d0 :: ds', _ =>
        simp only [List.cons_append, List.head?_cons, Option.some.injEq] at hw
        exact hw ▸ isPySpace_eq_false_of_isDigit (hdall d0 (List.mem_cons_self _ _))
  have htw : (ws ++ (ds ++ c :: (body ++ (tail ++ t')))).takeWhile isPySpace = ws :=
    takeWhile_append_stop hwall hdhead
  have hdw : (ws ++ (ds ++ c :: (body ++ (tail ++ t')))).dropWhile isPySpace =
      ds ++ c :: (body ++ (tail ++ t')) :=
    dropWhile_append_stop hwall hdhead
  rw [htw, hdw]
  rw [if_neg hwne]
  have hchead : ∀ w, (c :: (body ++ (tail ++ t'))).head? = some w →
      Char.isDigit w = false := by
    intro w hw
    simp only [List.head?_cons, Option.some.injEq] at hw
    exact hw ▸ dot_colon_not_digit hc
  have htw2 : (ds ++ c :: (body ++ (tail ++ t'))).takeWhile Char.isDigit = ds :=
    takeWhile_append_stop hdall hchead
  have hdw2 : (ds ++ c :: (body ++ (tail ++ t'))).dropWhile Char.isDigit =
      c :: (body ++ (tail ++ t')) :=
    dropWhile_append_stop hdall hchead
  rw [htw2, hdw2]
  rw [if_neg hdne]
  dsimp only
  have hcb : (c = '.' || c = ':') = true := by
    rcases hc with rfl | rfl <;> simp
  rw [if_pos hcb]
  have hball : ∀ x ∈ body, notNL x = true := by
    intro x hx
    simp only [notNL, bne_iff_ne, ne_eq]
    intro hxe
    exact hbnl (hxe ▸ hx)
  rcases htail with rfl | ⟨nxt, hnne, hnnl, rfl⟩
  · simp only [List.nil_append]
    have hbody' : (body ++ t').takeWhile notNL ≠ [] := by
      rw [List.takeWhile_append_of_pos hball]
      match body, hbne with
      | b0 :: body', _ => simp
    rw [if_neg hbody']
    split
    · split <;> simp
    · simp
  · have hnall : ∀ x ∈ nxt, notNL x = true := by
      intro x hx
      simp only [notNL, bne_iff_ne, ne_eq]
      intro hxe
      exact hnnl (hxe ▸ hx)
    have hnlcons : ('\n' :: nxt) ++ t' = '\n' :: (nxt ++ t') := by simp
    rw [hnlcons]
    have hstop : ∀ w, (('\n' :: (nxt ++ t')) : List Char).head? = some w →
        notNL w = false := by
      intro w hw
      simp only [List.head?_cons, Option.some.injEq] at hw
      subst hw
      simp [notNL]
    have htwb : (body ++ '\n' :: (nxt ++ t')).takeWhile notNL = body :=
      takeWhile_append_stop hball hstop
    have hdwb : (body ++ '\n' :: (nxt ++ t')).dropWhile notNL = '\n' :: (nxt ++ t') :=
      dropWhile_append_stop hball hstop
    rw [htwb, hdwb]
    rw [if_neg hbne]
    have hnxt' : (nxt ++ t').takeWhile notNL ≠ [] := by
      rw [List.takeWhile_append_of_pos hnall]
      match nxt, hnne with
      | n0 :: nxt', _ => simp
    split
    next t5 heq6 =>
      obtain rfl : nxt ++ t' = t5 := by
        simpa using heq6
      rw [if_neg hnxt']
      simp
    next => simp

/-! ## Soundness and completeness of the table matcher -/

/-- The head of a non-trivial `dropWhile` fails the predicate. -/
theorem dropWhile_head_false {p : Char → Bool} :
    ∀ {l : List Char} {c : Char} {x : List Char},
      l.dropWhile p = c :: x → p c = false := by
  intro l
  induction l with
  | nil => intro c x h; simp at h
  | cons a l ih =>
      intro c x h
      by_cases hpa : p a = true
      · rw [List.dropWhile_cons_of_pos hpa] at h
        exact ih h
      · rw [List.dropWhile_cons_of_neg hpa] at h
        obtain ⟨rfl, -⟩ := List.cons.inj h
        exact Bool.not_eq_true _ ▸ hpa

/-- A `dropWhile` whose input already starts with a failing entry is the
identity. -/
theorem dropWhile_eq_self_of_head {p : Char → Bool} {l : List Char} {c : Char}
    (hh : l.head? = some c) (hc : p c = false) : l.dropWhile p = l := by
  match l, hh with
  | a :: l', hh =>
      simp only [List.head?_cons, Option.some.injEq] at hh
      subst hh
      rw [List.dropWhile_cons_of_neg (by simp [hc])]

/-- Non-empty lists inside a flatten bound its length from below. -/
theorem length_le_flatten_length {us : List (List Char)}
    (h : ∀ u ∈ us, u ≠ []) : us.length ≤ us.flatten.length := by
  induction us with
  | nil => simp
  | cons u us ih =>
      simp only [List.flatten_cons, List.length_cons, List.length_append]
      have hu : 1 ≤ u.length :=
        List.length_pos.mpr (h u (List.mem_cons_self _ _))
      have := ih (fun v hv => h v (List.mem_cons_of_mem _ hv))
      omega

/-- Soundness of the header-row matcher. -/
theorem matchRow_sound {t m r : List Char} (h : matchRow t = some (m, r)) :
    t = m ++ r ∧ ∃ row, RowOk row ∧ m = row ++ ['\n'] := by
  unfold matchRow at h
  dsimp only at h
  by_cases hcond : (decide ((t.takeWhile notNL).head? = some '|') &&
      decide ((t.takeWhile notNL).getLast? = some '|') &&
      decide (3 ≤ (t.takeWhile notNL).length)) = true
  swap
  · rw [if_neg hcond] at h
    exact absurd h (by simp)
  · rw [if_pos hcond] at h
    simp only [Bool.and_eq_true, decide_eq_true_eq] at hcond
    obtain ⟨⟨h1, h2⟩, h3⟩ := hcond
    split at h
    next r2 heq =>
      obtain ⟨rfl, rfl⟩ : t.takeWhile notNL ++ ['\n'] = m ∧ r2 = r :=
        ⟨congrArg Prod.fst (Option.some.inj h),
          congrArg Prod.snd (Option.some.inj h)⟩
      have hsplit := List.takeWhile_append_dropWhile (p := notNL) (l := t)
      rw [heq] at hsplit
      have hteq : t = (t.takeWhile notNL ++ ['\n']) ++ r2 := by
        conv_lhs => rw [← hsplit]
        simp
      refine ⟨hteq, t.takeWhile notNL, ⟨h1, h2, h3, ?_⟩, rfl⟩
      intro hmem
      have := List.mem_takeWhile_imp hmem
      simp [notNL] at this
    next => exact absurd h (by simp)

/-- Completeness of the header-row matcher. -/
theorem matchRow_complete {row : List Char} (hok : RowOk row) (rest : List Char) :
    matchRow (row ++ '\n' :: rest) = some (row ++ ['\n'], rest) := by
  obtain ⟨h1, h2, h3, h4⟩ := hok
  have hall : ∀ x ∈ row, notNL x = true := by
    intro x hx
    simp only [notNL, bne_iff_ne, ne_eq]
    intro hxe
    exact h4 (hxe ▸ hx)
  have hstop : ∀ w, (('\n' :: rest) : List Char).head? = some w → notNL w = false := by
    intro w hw
    simp only [List.head?_cons, Option.some.injEq] at hw
    subst hw
    simp [notNL]
  have htw : (row ++ '\n' :: rest).takeWhile notNL = row :=
    takeWhile_append_stop hall hstop
  have hdw : (row ++ '\n' :: rest).dropWhile notNL = '\n' :: rest :=
    dropWhile_append_stop hall hstop
  unfold matchRow
  rw [htw, hdw]
  rw [if_pos (by simp [h1, h2, h3])]
  split
  next r2 heq =>
    obtain rfl : rest = r2 := by simpa using heq
    rfl
  next hne => exact (hne rest rfl).elim

/-- Soundness of the separator-unit matcher. -/
theorem sepUnit_sound {t m r : List Char} (h : sepUnit t = some (m, r)) :
    t = m ++ r ∧ SepUnitOk m := by
  unfold sepUnit at h
  split at h
  next t1 =>
    by_cases hds : t1.takeWhile isSepChar = []
    · rw [if_pos hds] at h
      exact absurd h (by simp)
    · rw [if_neg hds] at h
      split at h
      next t2 heq =>
        obtain ⟨rfl, rfl⟩ : '|' :: (t1.takeWhile isSepChar ++ ['|']) = m ∧ t2 = r :=
          ⟨congrArg Prod.fst (Option.some.inj h),
            congrArg Prod.snd (Option.some.inj h)⟩
        have hsplit := List.takeWhile_append_dropWhile (p := isSepChar) (l := t1)
        rw [heq] at hsplit
        have hteq : '|' :: t1 = ('|' :: (t1.takeWhile isSepChar ++ ['|'])) ++ t2 := by
          conv_lhs => rw [← hsplit]
          simp
        exact ⟨hteq, t1.takeWhile isSepChar, hds,
          fun c hc => List.mem_takeWhile_imp hc, rfl⟩
      next => exact absurd h (by simp)
  next => exact absurd h (by simp)

/-- Completeness of the separator-unit matcher: a unit is always re-parsed
as itself. -/
theorem sepUnit_complete {u : List Char} (hok : SepUnitOk u) (rest : List Char) :
    sepUnit (u ++ rest) = some (u, rest) := by
  obtain ⟨ds, hne, hall, rfl⟩ := hok
  have harr : ('|' :: (ds ++ ['|'])) ++ rest = '|' :: (ds ++ '|' :: rest) := by simp
  rw [harr]
  have hstop : ∀ w, (('|' :: rest) : List Char).head? = some w → isSepChar w = false := by
    intro w hw
    simp only [List.head?_cons, Option.some.injEq] at hw
    subst hw
    simp [isSepChar]
  have htw : (ds ++ '|' :: rest).takeWhile isSepChar = ds :=
    takeWhile_append_stop hall hstop
  have hdw : (ds ++ '|' :: rest).dropWhile isSepChar = '|' :: rest :=
    dropWhile_append_stop hall hstop
  simp only [sepUnit]
  rw [htw, hdw]
  rw [if_neg hne]
  simp

/-- Soundness of the separator run. -/
theorem sepRun_sound :
    ∀ (fuel : Nat) (t : List Char),
      (sepRun fuel t).1.flatten ++ (sepRun fuel t).2 = t ∧
        ∀ u ∈ (sepRun fuel t).1, SepUnitOk u := by
  intro fuel
  induction fuel with
  | zero =>
      intro t
      exact ⟨by simp [show sepRun 0 t = ([], t) from rfl], by
        simp [show sepRun 0 t = ([], t) from rfl]⟩
  | succ f ih =>
      intro t
      rw [sepRun]
      cases hu : sepUnit t with
      | none => simp
      | some p =>
          obtain ⟨heq, hok⟩ := sepUnit_sound hu
          constructor
          · simp only [List.flatten_cons, List.append_assoc]
            rw [(ih p.2).1]
            exact heq.symm
          · intro u hu2
            rcases List.mem_cons.mp hu2 with rfl | hu2
            · exact hok
            · exact (ih p.2).2 u hu2

/-- Completeness of the separator run: given enough fuel it consumes exactly
the units and stops where no unit starts. -/
theorem sepRun_units {us : List (List Char)} (hall : ∀ u ∈ us, SepUnitOk u) :
    ∀ (rest : List Char) (fuel : Nat), sepUnit rest = none →
      us.length ≤ fuel → sepRun fuel (us.flatten ++ rest) = (us, rest) := by
  induction us with
  | nil =>
      intro rest fuel hstop _
      cases fuel with
      | zero => simp [sepRun]
      | succ f => simp [sepRun, hstop]
  | cons u us ih =>
      intro rest fuel hstop hfuel
      cases fuel with
      | zero => simp at hfuel
      | succ f =>
          have harr : (u :: us).flatten ++ rest = u ++ (us.flatten ++ rest) := by
            simp
          rw [harr, sepRun,
            sepUnit_complete (hall u (List.mem_cons_self _ _)) (us.flatten ++ rest)]
          have := ih (fun v hv => hall v (List.mem_cons_of_mem _ hv)) rest f hstop
            (by simpa using hfuel)
          simp [this]

/-- No separator unit starts at a newline. -/
theorem sepUnit_newline (rest : List Char) : sepUnit ('\n' :: rest) = none := by
  simp [sepUnit]

/-- Soundness of the separator part. -/
theorem sepPart_sound {t m r : List Char} (h : sepPart t = some (m, r)) :
    t = m ++ r ∧ ∃ seps, SepsOk seps ∧ m = seps ++ ['\n'] := by
  unfold sepPart at h
  by_cases hne : (sepRun t.length t).1 = []
  · rw [if_pos hne] at h
    exact absurd h (by simp)
  · rw [if_neg hne] at h
    split at h
    next r2 heq =>
      obtain ⟨rfl, rfl⟩ : (sepRun t.length t).1.flatten ++ ['\n'] = m ∧ r2 = r :=
        ⟨congrArg Prod.fst (Option.some.inj h),
          congrArg Prod.snd (Option.some.inj h)⟩
      obtain ⟨hflat, hok⟩ := sepRun_sound t.length t
      rw [heq] at hflat
      have hteq : t = ((sepRun t.length t).1.flatten ++ ['\n']) ++ r2 := by
        conv_lhs => rw [← hflat]
        simp
      exact ⟨hteq,
        (sepRun t.length t).1.flatten, ⟨(sepRun t.length t).1, hne, hok, rfl⟩, rfl⟩
    next => exact absurd h (by simp)

/-- Completeness of the separator part. -/
theorem sepPart_complete {seps : List Char} (hok : SepsOk seps) (rest : List Char) :
    sepPart (seps ++ '\n' :: rest) = some (seps ++ ['\n'], rest) := by
  obtain ⟨us, hne, hall, rfl⟩ := hok
  have hfuel : us.length ≤ (us.flatten ++ '\n' :: rest).length := by
    have h1 := length_le_flatten_length
      (fun u hu => by obtain ⟨ds, hd, -, rfl⟩ := hall u hu; simp)
    simp only [List.length_append]
    omega
  have hrun := sepRun_units hall ('\n' :: rest) (us.flatten ++ '\n' :: rest).length
    (sepUnit_newline rest) hfuel
  unfold sepPart
  rw [hrun]
  simp [hne]

/-- Soundness of the data-row unit matcher. -/
theorem dataUnit_sound {t m r : List Char} (h : dataUnit t = some (m, r)) :
    t = m ++ r ∧ RowOk m := by
  unfold dataUnit at h
  split at h
  next t0 =>
    dsimp only at h
    by_cases hlen : 3 ≤ ((('|' :: t0).takeWhile notNL).reverse.dropWhile
        (fun c => c != '|')).length
    · rw [if_pos hlen] at h
      obtain ⟨rfl, rfl⟩ :
          ((('|' :: t0).takeWhile notNL).reverse.dropWhile
            (fun c => c != '|')).reverse = m ∧
          (('|' :: t0).takeWhile notNL).drop
              ((('|' :: t0).takeWhile notNL).reverse.dropWhile
                (fun c => c != '|')).length ++
            ('|' :: t0).dropWhile notNL = r :=
        ⟨congrArg Prod.fst (Option.some.inj h),
          congrArg Prod.snd (Option.some.inj h)⟩
      have hrev : (('|' :: t0).takeWhile notNL).reverse =
          (('|' :: t0).takeWhile notNL).reverse.takeWhile (fun c => c != '|') ++
            (('|' :: t0).takeWhile notNL).reverse.dropWhile (fun c => c != '|') :=
        (List.takeWhile_append_dropWhile ..).symm
      have hline : ('|' :: t0).takeWhile notNL =
          ((('|' :: t0).takeWhile notNL).reverse.dropWhile
            (fun c => c != '|')).reverse ++
          ((('|' :: t0).takeWhile notNL).reverse.takeWhile
            (fun c => c != '|')).reverse := by
        conv_lhs => rw [← List.reverse_reverse (('|' :: t0).takeWhile notNL)]
        conv_lhs => rw [hrev]
        rw [List.reverse_append]
      have hdrop : (('|' :: t0).takeWhile notNL).drop
          ((('|' :: t0).takeWhile notNL).reverse.dropWhile
            (fun c => c != '|')).length =
          ((('|' :: t0).takeWhile notNL).reverse.takeWhile
            (fun c => c != '|')).reverse := by
        conv_lhs => rw [hline]
        exact List.drop_left' (by simp)
      have hmne : ((('|' :: t0).takeWhile notNL).reverse.dropWhile
          (fun c => c != '|')).reverse ≠ [] := by
        intro hx
        rw [← List.length_eq_zero, List.length_reverse] at hx
        omega
      constructor
      · rw [hdrop]
        conv_lhs => rw [← List.takeWhile_append_dropWhile (p := notNL)
          (l := '|' :: t0)]
        conv_lhs => rw [hline]
        simp
      · refine ⟨?_, ?_, ?_, ?_⟩
        · have hlh : (('|' :: t0).takeWhile notNL).head? = some '|' := by
            rw [List.takeWhile_cons_of_pos (by simp [notNL])]
            simp
          rw [hline, List.head?_append] at hlh
          cases hmh : ((('|' :: t0).takeWhile notNL).reverse.dropWhile
              (fun c => c != '|')).reverse.head? with
          | none => exact absurd (by simpa using hmh) hmne
          | some v =>
              rw [hmh] at hlh
              simpa using hlh
        · rw [List.getLast?_reverse]
          cases hdh : (('|' :: t0).takeWhile notNL).reverse.dropWhile
              (fun c => c != '|') with
          | nil =>
              rw [hdh] at hlen
              simp at hlen
          | cons d x =>
              have hd : d = '|' := by simpa using dropWhile_head_false hdh
              simp [hdh, hd]
        · simpa using hlen
        · intro hmem
          have hmem2 : ('\n' : Char) ∈ ('|' :: t0).takeWhile notNL := by
            rw [hline]
            exact List.mem_append.mpr (Or.inl hmem)
          have := List.mem_takeWhile_imp hmem2
          simp [notNL] at this
    · rw [if_neg hlen] at h
      exact absurd h (by simp)
  next => exact absurd h (by simp)

/-- Completeness of the data-row unit matcher on an exact row followed by a
newline. -/
theorem dataUnit_complete_exact {u : List Char} (hok : RowOk u) (rest : List Char) :
    dataUnit (u ++ '\n' :: rest) = some (u, '\n' :: rest) := by
  obtain ⟨h1, h2, h3, h4⟩ := hok
  obtain ⟨u', rfl⟩ : ∃ u', u = '|' :: u' := by
    match u, h1 with
    | c :: u', h1 =>
        simp only [List.head?_cons, Option.some.injEq] at h1
        exact ⟨u', by rw [h1]⟩
  have hall : ∀ x ∈ '|' :: u', notNL x = true := by
    intro x hx
    simp only [notNL, bne_iff_ne, ne_eq]
    intro hxe
    exact h4 (hxe ▸ hx)
  have hstop : ∀ w, (('\n' :: rest) : List Char).head? = some w → notNL w = false := by
    intro w hw
    simp only [List.head?_cons, Option.some.injEq] at hw
    subst hw
    simp [notNL]
  have htw : (('|' :: u') ++ '\n' :: rest).takeWhile notNL = '|' :: u' :=
    takeWhile_append_stop hall hstop
  have hdw : (('|' :: u') ++ '\n' :: rest).dropWhile notNL = '\n' :: rest :=
    dropWhile_append_stop hall hstop
  have hrevdrop : ('|' :: u').reverse.dropWhile (fun c => c != '|') =
      ('|' :: u').reverse := by
    have hh : ('|' :: u').reverse.head? = some '|' := by
      rw [List.head?_reverse]
      exact h2
    exact dropWhile_eq_self_of_head hh (by simp)
  unfold dataUnit
  simp only [List.cons_append]
  rw [show ('|' :: (u' ++ '\n' :: rest)).takeWhile notNL =
    '|' :: u' from by simpa using htw]
  rw [show ('|' :: (u' ++ '\n' :: rest)).dropWhile notNL =
    '\n' :: rest from by simpa using hdw]
  rw [hrevdrop]
  rw [if_pos (by simpa using h3)]
  simp

/-- Completeness of the data-row unit matcher on a row followed by arbitrary
text with no intervening newline: the match may extend, but it fires. -/
theorem dataUnit_complete_ext {u : List Char} (hok : RowOk u) (rest : List Char) :
    (dataUnit (u ++ rest)).isSome := by
  obtain ⟨h1, h2, h3, h4⟩ := hok
  obtain ⟨u', rfl⟩ : ∃ u', u = '|' :: u' := by
    match u, h1 with
    | c :: u', h1 =>
        simp only [List.head?_cons, Option.some.injEq] at h1
        exact ⟨u', by rw [h1]⟩
  have hall : ∀ x ∈ '|' :: u', notNL x = true := by
    intro x hx
    simp only [notNL, bne_iff_ne, ne_eq]
    intro hxe
    exact h4 (hxe ▸ hx)
  have htw : (('|' :: u') ++ rest).takeWhile notNL =
      ('|' :: u') ++ rest.takeWhile notNL :=
    List.takeWhile_append_of_pos hall
  have hlen : 3 ≤ (((('|' :: u') ++ rest.takeWhile notNL)).reverse.dropWhile
      (fun c => c != '|')).length := by
    rw [List.reverse_append]
    rw [List.dropWhile_append]
    split
    · have hrevdrop : ('|' :: u').reverse.dropWhile (fun c => c != '|') =
          ('|' :: u').reverse := by
        have hh : ('|' :: u').reverse.head? = some '|' := by
          rw [List.head?_reverse]
          exact h2
        exact dropWhile_eq_self_of_head hh (by simp)
      rw [hrevdrop]
      simpa using h3
    · have h3' : 3 ≤ u'.length + 1 := by simpa using h3
      simp only [List.length_append, List.length_reverse, List.length_cons]
      omega
  unfold dataUnit
  simp only [List.cons_append]
  rw [show ('|' :: (u' ++ rest)).takeWhile notNL =
    ('|' :: u') ++ rest.takeWhile notNL from by simpa using htw]
  rw [if_pos hlen]
  simp

/-- Soundness of the greedy data-row continuation. -/
theorem dataRun_sound :
    ∀ (fuel : Nat) (t : List Char), (dataRun fuel t).1 ++ (dataRun fuel t).2 = t := by
  intro fuel
  induction fuel with
  | zero => intro t; simp [show ∀ t, dataRun 0 t = ([], t) from fun _ => rfl]
  | succ f ih =>
      intro t
      rw [dataRun]
      cases hu : dataUnit t with
      | none => simp
      | some p =>
          obtain ⟨heq, -⟩ := dataUnit_sound hu
          dsimp only
          split
          next r2 heq2 =>
            dsimp only
            simp only [List.append_assoc, List.cons_append]
            rw [ih r2]
            rw [← heq2, ← heq]
          next hne =>
            exact heq.symm

/-- Soundness of the data part. -/
theorem dataPart_sound {t m r : List Char} (h : dataPart t = some (m, r)) :
    t = m ++ r ∧ ∃ u tail, RowOk u ∧ (tail = [] ∨ tail.head? = some '\n') ∧
      m = u ++ tail := by
  unfold dataPart at h
  split at h
  next => exact absurd h (by simp)
  next u r0 hu =>
    obtain ⟨heq, hok⟩ := dataUnit_sound hu
    split at h
    next r2 =>
      dsimp only at h
      obtain ⟨rfl, rfl⟩ : u ++ '\n' :: (dataRun r2.length r2).1 = m ∧
          (dataRun r2.length r2).2 = r :=
        ⟨congrArg Prod.fst (Option.some.inj h),
          congrArg Prod.snd (Option.some.inj h)⟩
      refine ⟨?_, u, '\n' :: (dataRun r2.length r2).1, hok, Or.inr rfl, rfl⟩
      rw [heq]
      simp only [List.append_assoc, List.cons_append]
      rw [dataRun_sound r2.length r2]
    next hne =>
      obtain ⟨rfl, rfl⟩ : u = m ∧ r0 = r :=
        ⟨congrArg Prod.fst (Option.some.inj h),
          congrArg Prod.snd (Option.some.inj h)⟩
      exact ⟨heq, u, [], hok, Or.inl rfl, by simp⟩

/-- Completeness of the data part. -/
theorem dataPart_complete {u tail : List Char} (hok : RowOk u)
    (htail : tail = [] ∨ tail.head? = some '\n') (t' : List Char) :
    (dataPart ((u ++ tail) ++ t')).isSome := by
  rcases htail with rfl | hhd
  · have h1 := dataUnit_complete_ext hok t'
    rw [List.append_nil]
    unfold dataPart
    cases hu : dataUnit (u ++ t') with
    | none => rw [hu] at h1; simp at h1
    | some p =>
        dsimp only
        split
        · simp
        · simp
  · obtain ⟨tl, rfl⟩ : ∃ tl, tail = '\n' :: tl := by
      match tail, hhd with
      | c :: tl, hhd =>
          simp only [List.head?_cons, Option.some.injEq] at hhd
          exact ⟨tl, by rw [hhd]⟩
    have harr : ((u ++ '\n' :: tl) ++ t') = u ++ '\n' :: (tl ++ t') := by simp
    rw [harr]
    unfold dataPart
    rw [dataUnit_complete_exact hok (tl ++ t')]
    simp

/-- Soundness of the full table matcher. -/
theorem matchTable_sound {t m r : List Char} (h : matchTable t = some (m, r)) :
    t = m ++ r ∧ m ≠ [] ∧ ShapeTab m := by
  unfold matchTable at h
  split at h
  next => exact absurd h (by simp)
  next a t1 ha =>
    split at h
    next => exact absurd h (by simp)
    next b t2 hb =>
      split at h
      next => exact absurd h (by simp)
      next cpart t3 hcp =>
        obtain ⟨rfl, rfl⟩ : a ++ b ++ cpart = m ∧ t3 = r :=
          ⟨congrArg Prod.fst (Option.some.inj h),
            congrArg Prod.snd (Option.some.inj h)⟩
        obtain ⟨hteq1, row, hrow, rfl⟩ := matchRow_sound ha
        obtain ⟨hteq2, seps, hseps, rfl⟩ := sepPart_sound hb
        obtain ⟨hteq3, u, tail, hu, htail, rfl⟩ := dataPart_sound hcp
        constructor
        · rw [hteq1, hteq2, hteq3]
          simp
        · constructor
          · simp
          · exact ⟨row, seps, u, tail, hrow, hseps, hu, htail, by simp⟩

/-- Packaged soundness for the generic lemmas. -/
theorem matchTable_psound : ∀ t m r, matchTable t = some (m, r) → t = m ++ r ∧ m ≠ [] :=
  fun _ _ _ h => ⟨(matchTable_sound h).1, (matchTable_sound h).2.1⟩

/-- Completeness of the table matcher: it fires on any text whose head is a
table span. -/
theorem matchTable_complete {m : List Char} (hS : ShapeTab m) (t' : List Char) :
    (matchTable (m ++ t')).isSome := by
  obtain ⟨row, seps, u, tail, hrow, hseps, hu, htail, rfl⟩ := hS
  have harr : (row ++ '\n' :: (seps ++ '\n' :: (u ++ tail))) ++ t' =
      row ++ '\n' :: (seps ++ '\n' :: ((u ++ tail) ++ t')) := by simp
  rw [harr]
  unfold matchTable
  rw [matchRow_complete hrow (seps ++ '\n' :: ((u ++ tail) ++ t'))]
  dsimp only
  rw [sepPart_complete hseps ((u ++ tail) ++ t')]
  dsimp only
  have h1 := dataPart_complete hu htail t'
  cases hdp : dataPart ((u ++ tail) ++ t') with
  | none => rw [hdp] at h1; simp at h1
  | some p => simp

/-! ## Assembling the round-trip removal property (claim C2) -/

/-- The positioned scanner reports the same spans as the plain scanner. -/
theorem findAllPosF_snd (pat : List Char → Option (List Char × List Char)) :
    ∀ (fuel pos : Nat) (t : List Char),
      (findAllPosF pat fuel pos t).map Prod.snd = findAllF pat fuel t := by
  intro fuel
  induction fuel with
  | zero => intro pos t; cases t <;> rfl
  | succ f ih =>
      intro pos t
      match t with
      | [] => rfl
      | c :: cs =>
          rw [findAllPosF, findAllF]
          cases hpat : pat (c :: cs) with
          | some p => simp [ih]
          | none => simp [ih]

/-- The equation spans are exactly the raw `latex` spans stored by
`_extract_equations`. -/
theorem extractEquations_latex (t : List Char) :
    (extractEquations t).map (fun n => n.latex) = (eqSpans t).map some := by
  unfold extractEquations eqSpans
  rw [← findAllPosF_snd matchEqFull t.length 0 t]
  simp [List.map_map]

/-- The figure spans are exactly the `caption` spans stored by
`_extract_figures`. -/
theorem extractFigures_caption (t : List Char) :
    (extractFigures t).map (fun n => n.caption) = (figSpans t).map some := by
  unfold extractFigures figSpans
  rw [← findAllPosF_snd matchFig t.length 0 t]
  simp [List.map_map]

/-- Every table span contains a pipe. -/
theorem ShapeTab.pipe_mem {m : List Char} (h : ShapeTab m) : '|' ∈ m := by
  obtain ⟨row, seps, u, tail, hrow, -, -, -, rfl⟩ := h
  obtain ⟨ys, rfl⟩ := List.head?_eq_some_iff.mp hrow.1
  simp

/-- Every block-equation span contains a dollar. -/
theorem ShapeEq2.dollar_mem {m : List Char} (h : ShapeEq2 m) : '$' ∈ m := by
  obtain ⟨mid, -, -, rfl⟩ := h
  simp

/-- Every figure span contains a digit. -/
theorem ShapeFig.digit_mem {m : List Char} (h : ShapeFig m) :
    ∃ d ∈ m, d.isDigit = true := by
  obtain ⟨hd, ws, ds, c, body, tail, -, -, -, hdne, hdall, -, -, -, -, rfl⟩ := h
  match ds, hdne with
  | d0 :: ds', _ =>
      refine ⟨d0, ?_, hdall d0 (List.mem_cons_self _ _)⟩
      simp

/-- A reported equation span starting with a double dollar came from the
block alternative. -/
theorem blockEq_shape {s m : List Char} (hm : m ∈ eqSpans s)
    (h2 : m.take 2 = ['$', '$']) : ShapeEq2 m := by
  obtain ⟨tall, r, hp, -⟩ :=
    findAllF_sound matchEqFull matchEqFull_psound s.length s m hm
  rcases (matchEqFull_sound hp).2.2 with hs | hs
  · exact hs
  · exfalso
    obtain ⟨mid, hne, hnd, rfl⟩ := hs
    match mid, hne with
    | c :: mid', _ =>
        simp only [List.cons_append, List.take_cons, List.take_zero] at h2
        have : c = '$' := by simpa using congrArg (fun l => l.get? 1) h2
        exact hnd c (List.mem_cons_self _ _) this

/-- The input of the C2 counterexample. -/
def c2CexInput : List Char := "see $x$ here".data

set_option maxRecDepth 2000 in
/-- Counterexample to claim C2 as stated: the inline equation `$x$` is
matched and extracted by the equation extractor, but the removal pass only
substitutes double-dollar equations, so the span survives verbatim in the
residual text. -/
theorem claim_C2_counterexample :
    ['$', 'x', '$'] ∈ eqSpans c2CexInput ∧
      ['$', 'x', '$'] <:+: removeSpecialContent c2CexInput := by
  constructor
  · decide
  · exact ⟨"see ".data, " here".data, by decide⟩

/-- Claim C2 (amended): on any input free of square brackets, every span
extracted as a table or figure chunk, and every double-dollar span extracted
as an equation chunk, is absent from the residual text produced by
`_remove_special_content`.  (Single-dollar inline equation spans are
excluded: they are extracted but deliberately left in the residual, and
square brackets must be excluded because a bracketed input can forge
placeholder text that splices a removed span back together.) -/
theorem claim_C2_amended (s : List Char) (hnb : ∀ c ∈ s, c ≠ '[' ∧ c ≠ ']') :
    (∀ m ∈ tableSpans s, ¬ m <:+: removeSpecialContent s) ∧
      (∀ m ∈ blockEqSpans s, ¬ m <:+: removeSpecialContent s) ∧
      (∀ m ∈ figSpans s, ¬ m <:+: removeSpecialContent s) := by
  unfold removeSpecialContent
  refine ⟨?_, ?_, ?_⟩
  · intro m hm
    obtain ⟨tall, r, hp, -⟩ :=
      findAllF_sound matchTable matchTable_psound s.length s m hm
    obtain ⟨-, hmne, hshape⟩ := matchTable_sound hp
    have hinf : m <:+: s := findAllF_infix matchTable matchTable_psound s.length s m hm
    have hmnb : ∀ c ∈ m, c ≠ '[' ∧ c ≠ ']' := fun c hc => hnb c (hinf.subset hc)
    have hd1 : ∃ d ∈ m, d ∉ tablePlaceholder := ⟨'|', hshape.pipe_mem, by decide⟩
    have hd2 : ∃ d ∈ m, d ∉ eqPlaceholder := ⟨'|', hshape.pipe_mem, by decide⟩
    have hd3 : ∃ d ∈ m, d ∉ figPlaceholder := ⟨'|', hshape.pipe_mem, by decide⟩
    have h1 : ¬ m <:+: subAllF matchTable tablePlaceholder s.length s :=
      not_infix_subAllF matchTable matchTable_psound tablePlaceholder m hmne hmnb
        hd1 (by decide) (by decide) (fun t' => matchTable_complete hshape t')
        s.length s le_rfl
    have h2 := not_infix_subAllF_of_not_infix matchEq2 matchEq2_psound eqPlaceholder
      m hmne hmnb hd2 (by decide) (by decide) _ _ le_rfl h1
    exact not_infix_subAllF_of_not_infix matchFig matchFig_psound figPlaceholder
      m hmne hmnb hd3 (by decide) (by decide) _ _ le_rfl h2
  · intro m hm
    obtain ⟨hm1, hm2⟩ := List.mem_filter.mp hm
    have hshape : ShapeEq2 m := blockEq_shape hm1 (by simpa using hm2)
    have hmne : m ≠ [] := by
      obtain ⟨mid, -, -, rfl⟩ := hshape
      simp
    have hinf : m <:+: s := findAllF_infix matchEqFull matchEqFull_psound s.length s m hm1
    have hmnb : ∀ c ∈ m, c ≠ '[' ∧ c ≠ ']' := fun c hc => hnb c (hinf.subset hc)
    have hd2 : ∃ d ∈ m, d ∉ eqPlaceholder := ⟨'$', hshape.dollar_mem, by decide⟩
    have hd3 : ∃ d ∈ m, d ∉ figPlaceholder := ⟨'$', hshape.dollar_mem, by decide⟩
    have h2 : ¬ m <:+: subAllF matchEq2 eqPlaceholder
        (subAllF matchTable tablePlaceholder s.length s).length
        (subAllF matchTable tablePlaceholder s.length s) :=
      not_infix_subAllF matchEq2 matchEq2_psound eqPlaceholder m hmne hmnb
        hd2 (by decide) (by decide) (fun t' => matchEq2_complete hshape t') _ _ le_rfl
    exact not_infix_subAllF_of_not_infix matchFig matchFig_psound figPlaceholder
      m hmne hmnb hd3 (by decide) (by decide) _ _ le_rfl h2
  · intro m hm
    obtain ⟨tall, r, hp, -⟩ :=
      findAllF_sound matchFig matchFig_psound s.length s m hm
    obtain ⟨-, hmne, hshape⟩ := matchFig_sound hp
    have hinf : m <:+: s := findAllF_infix matchFig matchFig_psound s.length s m hm
    have hmnb : ∀ c ∈ m, c ≠ '[' ∧ c ≠ ']' := fun c hc => hnb c (hinf.subset hc)
    obtain ⟨d, hdm, hdd⟩ := hshape.digit_mem
    have hd3 : ∃ x ∈ m, x ∉ figPlaceholder := by
      refine ⟨d, hdm, fun hmem => ?_⟩
      have : ∀ c ∈ figPlaceholder, c.isDigit = false := by decide
      rw [this d hmem] at hdd
      exact Bool.false_ne_true hdd
    exact not_infix_subAllF matchFig matchFig_psound figPlaceholder m hmne hmnb
      hd3 (by decide) (by decide) (fun t' => matchFig_complete hshape t') _ _ le_rfl

set_option maxRecDepth 4000 in
/-- Witness for C2 (amended) at a concrete bracket-free page containing a
table, a block equation and a figure caption. -/
theorem claim_C2_witness :
    (∀ m ∈ tableSpans "a\n|b|\n|-|\n|c|\n$$x$$\nFig. 1: ok\nz".data,
        ¬ m <:+: removeSpecialContent "a\n|b|\n|-|\n|c|\n$$x$$\nFig. 1: ok\nz".data) ∧
      (∀ m ∈ blockEqSpans "a\n|b|\n|-|\n|c|\n$$x$$\nFig. 1: ok\nz".data,
        ¬ m <:+: removeSpecialContent "a\n|b|\n|-|\n|c|\n$$x$$\nFig. 1: ok\nz".data) ∧
      (∀ m ∈ figSpans "a\n|b|\n|-|\n|c|\n$$x$$\nFig. 1: ok\nz".data,
        ¬ m <:+: removeSpecialContent "a\n|b|\n|-|\n|c|\n$$x$$\nFig. 1: ok\nz".data) :=
  claim_C2_amended "a\n|b|\n|-|\n|c|\n$$x$$\nFig. 1: ok\nz".data (by decide)

end SciRAG
